import Mathlib

/-!
Verification of gru: rate limiting, tickers and wait groups.

A shallow embedding of the three Go programs of the repository
(`rate-limiting/rate-limiting.go`, `tickers/tickers.go`,
`wait-groups/wait-groups.go`) as labelled transition systems.

* A goroutine is a program counter; one event is one atomic step of one
  goroutine or of the runtime timer.  `step s e = none` means that `e` is not
  enabled in `s` (the goroutine is blocked, or is not at that statement).
* A schedule is a list of events; the states reachable by some schedule are
  all interleavings of the goroutines.
* `time.Time` values are milliseconds on an ideal clock, counted from the
  moment the ticker of the program fragment is created.
-/

namespace Go

/-- Buffered Go channel: `make(chan T, cap)`. -/
structure Chan (α : Type) where
  cap : Nat
  buf : List α
  closed : Bool
deriving DecidableEq, Repr

/-- The channel `make(chan T, n)`. -/
def Chan.make {α : Type} (n : Nat) : Chan α := ⟨n, [], false⟩

/-- Blocking send `c <- v`: proceeds when the buffer has room, `none` while it
would block. -/
def Chan.send {α : Type} (c : Chan α) (v : α) : Option (Chan α) :=
  if c.buf.length < c.cap then some { c with buf := c.buf ++ [v] } else none

/-- Non-blocking send `select { case c <- v: default: }`, the way the runtime
timer delivers a tick: the value is dropped when the buffer is full. -/
def Chan.trySend {α : Type} (c : Chan α) (v : α) : Chan α :=
  if c.buf.length < c.cap then { c with buf := c.buf ++ [v] } else c

/-- Receive `<-c` from a channel holding a value; `none` when the buffer is
empty (the receiver blocks, or the channel is closed and drained). -/
def Chan.recv {α : Type} (c : Chan α) : Option (α × Chan α) :=
  match c.buf with
  | [] => none
  | v :: rest => some (v, { c with buf := rest })

/-- The builtin `close(c)`. -/
def Chan.close {α : Type} (c : Chan α) : Chan α := { c with closed := true }

/-- A loop of sends `for ... { c <- v }`; `none` if one of them would block. -/
def Chan.sendAll {α : Type} (c : Chan α) : List α → Option (Chan α)
  | [] => some c
  | v :: vs => (c.send v).bind (fun c1 => c1.sendAll vs)

/-- Capacity of the channel of `time.Tick` and `time.NewTicker`
(`make(chan Time, 1)` in package `time`). -/
def tickerCap : Nat := 1

end Go

namespace RateLimiting

open Go

/-- Period of both tickers of `rate-limiting.go`: `200 * time.Millisecond`. -/
def period : Nat := 200

/-- Capacity of `burstyLimiter`: `make(chan time.Time, 3)`. -/
def burstCap : Nat := 3

/-- Program counter of the replenisher goroutine
`for t := range time.Tick(..) { burstyLimiter <- t }`. -/
inductive ReplPc where
  | atRange
  | sending (t : Nat)
deriving DecidableEq, Repr

/-- Program counter of a request loop
`for req := range requests { <-limiter; fmt.Println("request", req, time.Now()) }`. -/
inductive LoopPc where
  | atRange
  | acquiring (req : Nat)
  | finished
deriving DecidableEq, Repr

/-- State of the bursty limiter (lines 52-84). `out` is what has been printed:
the request id and `time.Now()`; `credits` counts the completed sends of the
replenisher. -/
structure Bursty where
  ticks : Nat
  tickC : Chan Nat
  burstyLimiter : Chan Nat
  burstyRequests : Chan Nat
  repl : ReplPc
  loop : LoopPc
  out : List (Nat × Nat)
  credits : Nat
deriving DecidableEq, Repr

/-- Events of the bursty limiter. -/
inductive BEvent where
  | tick
  | replRecv
  | replSend
  | loopNext
  | loopAcquire
deriving DecidableEq, Repr

/-- The ideal clock read by `time.Now()`: the time of the last tick fired. -/
def Bursty.now (s : Bursty) : Nat := period * s.ticks

/-- Tokens held in the bucket: `len(burstyLimiter)`. -/
def Bursty.tokens (s : Bursty) : Nat := s.burstyLimiter.buf.length

/-- Number of requests granted so far. -/
def Bursty.granted (s : Bursty) : Nat := s.out.length

/-- Lines 52-59 and 76-80: the limiter is filled with three `time.Now()`
values and the five requests are queued, then the channel is closed. -/
def Bursty.setup : Option Bursty := do
  let lim ← (Chan.make burstCap).sendAll [0, 0, 0]
  let reqs ← (Chan.make 5).sendAll [1, 2, 3, 4, 5]
  pure { ticks := 0, tickC := Chan.make tickerCap, burstyLimiter := lim,
         burstyRequests := reqs.close, repl := ReplPc.atRange,
         loop := LoopPc.atRange, out := [], credits := 0 }

/-- One atomic step of the bursty limiter. -/
def Bursty.step (s : Bursty) : BEvent → Option Bursty
  | BEvent.tick =>
      some { s with ticks := s.ticks + 1,
                    tickC := s.tickC.trySend (period * (s.ticks + 1)) }
  | BEvent.replRecv =>
      match s.repl with
      | ReplPc.atRange =>
          match s.tickC.recv with
          | some (t, c) => some { s with tickC := c, repl := ReplPc.sending t }
          | none => none
      | ReplPc.sending _ => none
  | BEvent.replSend =>
      match s.repl with
      | ReplPc.sending t =>
          match s.burstyLimiter.send t with
          | some c => some { s with burstyLimiter := c, repl := ReplPc.atRange,
                                    credits := s.credits + 1 }
          | none => none
      | ReplPc.atRange => none
  | BEvent.loopNext =>
      match s.loop with
      | LoopPc.atRange =>
          match s.burstyRequests.recv with
          | some (req, c) => some { s with burstyRequests := c, loop := LoopPc.acquiring req }
          | none => if s.burstyRequests.closed then some { s with loop := LoopPc.finished } else none
      | _ => none
  | BEvent.loopAcquire =>
      match s.loop with
      | LoopPc.acquiring req =>
          match s.burstyLimiter.recv with
          | some (_, c) => some { s with burstyLimiter := c, loop := LoopPc.atRange,
                                         out := s.out ++ [(req, s.now)] }
          | none => none
      | _ => none

/-- Run a schedule. -/
def Bursty.exec (s : Bursty) : List BEvent → Option Bursty
  | [] => some s
  | e :: es => (s.step e).bind (fun s1 => s1.exec es)

/-- Run a schedule from the state after the setup. -/
def Bursty.run (es : List BEvent) : Option Bursty :=
  Bursty.setup.bind (fun s => s.exec es)

/-- Some goroutine of the bursty limiter can take a step. -/
def Bursty.busy (s : Bursty) : Bool :=
  [BEvent.replRecv, BEvent.replSend, BEvent.loopNext, BEvent.loopAcquire].any
    (fun e => (s.step e).isSome)

/-- One step on the ideal clock: statements take no time, so the next tick
fires only once every goroutine is blocked. -/
def Bursty.ustep (s : Bursty) : BEvent → Option Bursty
  | BEvent.tick => if s.busy then none else s.step BEvent.tick
  | e => s.step e

/-- Run a schedule on the ideal clock. -/
def Bursty.uexec (s : Bursty) : List BEvent → Option Bursty
  | [] => some s
  | e :: es => (s.ustep e).bind (fun s1 => s1.uexec es)

/-- Run a schedule on the ideal clock from the state after the setup. -/
def Bursty.urun (es : List BEvent) : Option Bursty :=
  Bursty.setup.bind (fun s => s.uexec es)

/-- State of the basic limiter (lines 22-43): `limiter` is the channel of
`time.Tick(200 * time.Millisecond)`. -/
structure Basic where
  ticks : Nat
  limiter : Chan Nat
  requests : Chan Nat
  loop : LoopPc
  out : List (Nat × Nat)
deriving DecidableEq, Repr

/-- Events of the basic limiter. -/
inductive LEvent where
  | tick
  | loopNext
  | loopAcquire
deriving DecidableEq, Repr

/-- The ideal clock read by `time.Now()`: the time of the last tick fired. -/
def Basic.now (s : Basic) : Nat := period * s.ticks

/-- Number of requests served so far. -/
def Basic.served (s : Basic) : Nat := s.out.length

/-- Lines 22-33: the five requests are queued, the channel is closed and the
ticker is created. -/
def Basic.setup : Option Basic := do
  let reqs ← (Chan.make 5).sendAll [1, 2, 3, 4, 5]
  pure { ticks := 0, limiter := Chan.make tickerCap, requests := reqs.close,
         loop := LoopPc.atRange, out := [] }

/-- One atomic step of the basic limiter. -/
def Basic.step (s : Basic) : LEvent → Option Basic
  | LEvent.tick =>
      some { s with ticks := s.ticks + 1,
                    limiter := s.limiter.trySend (period * (s.ticks + 1)) }
  | LEvent.loopNext =>
      match s.loop with
      | LoopPc.atRange =>
          match s.requests.recv with
          | some (req, c) => some { s with requests := c, loop := LoopPc.acquiring req }
          | none => if s.requests.closed then some { s with loop := LoopPc.finished } else none
      | _ => none
  | LEvent.loopAcquire =>
      match s.loop with
      | LoopPc.acquiring req =>
          match s.limiter.recv with
          | some (_, c) => some { s with limiter := c, loop := LoopPc.atRange,
                                         out := s.out ++ [(req, s.now)] }
          | none => none
      | _ => none

/-- Run a schedule. -/
def Basic.exec (s : Basic) : List LEvent → Option Basic
  | [] => some s
  | e :: es => (s.step e).bind (fun s1 => s1.exec es)

/-- Run a schedule from the state after the setup. -/
def Basic.run (es : List LEvent) : Option Basic :=
  Basic.setup.bind (fun s => s.exec es)

/-- The request loop of the basic limiter can take a step. -/
def Basic.busy (s : Basic) : Bool :=
  [LEvent.loopNext, LEvent.loopAcquire].any (fun e => (s.step e).isSome)

/-- One step on the ideal clock: the next tick fires only once the loop is
blocked. -/
def Basic.ustep (s : Basic) : LEvent → Option Basic
  | LEvent.tick => if s.busy then none else s.step LEvent.tick
  | e => s.step e

/-- Run a schedule on the ideal clock. -/
def Basic.uexec (s : Basic) : List LEvent → Option Basic
  | [] => some s
  | e :: es => (s.ustep e).bind (fun s1 => s1.uexec es)

/-- Run a schedule on the ideal clock from the state after the setup. -/
def Basic.urun (es : List LEvent) : Option Basic :=
  Basic.setup.bind (fun s => s.uexec es)

end RateLimiting

namespace Tickers

open Go

/-- Period of the ticker: `500 * time.Millisecond`. -/
def tickPeriod : Nat := 500

/-- Duration of `time.Sleep(1600 * time.Millisecond)`. -/
def sleepFor : Nat := 1600

/-- Program counter of the goroutine `for { select { case <-done: return;
case t := <-ticker.C: fmt.Println("Tick at", t) } }`. -/
inductive HandlerPc where
  | atSelect
  | returned
deriving DecidableEq, Repr

/-- Program counter of `main`: in `time.Sleep`, at `ticker.Stop()`, at
`done <- true`, at `fmt.Println("Ticker stopped")`, after it. -/
inductive MainPc where
  | sleeping
  | atStop
  | atDone
  | atPrint
  | exited
deriving DecidableEq, Repr

/-- A printed line. -/
inductive Output where
  | tickAt (t : Nat)
  | tickerStopped
deriving DecidableEq, Repr

/-- State of `tickers.go`: `now` is the ideal clock, `nextTick` the time at
which the ticker fires next, `fired` counts the ticks fired. -/
structure State where
  now : Nat
  nextTick : Nat
  stopped : Bool
  tickerC : Chan Nat
  fired : Nat
  handler : HandlerPc
  main : MainPc
  out : List Output
deriving DecidableEq, Repr

/-- Events of `tickers.go`: `elapse d` lets `d` ms pass, `fire` is the runtime
timer, the others are statements of the two goroutines. -/
inductive Event where
  | elapse (d : Nat)
  | fire
  | wake
  | stop
  | handleTick
  | handleDone
  | printStopped
deriving DecidableEq, Repr

/-- State after `time.NewTicker`, `make(chan bool)` and the `go` statement,
with `main` entering `time.Sleep`. -/
def init : State :=
  { now := 0, nextTick := tickPeriod, stopped := false, tickerC := Chan.make tickerCap,
    fired := 0, handler := HandlerPc.atSelect, main := MainPc.sleeping, out := [] }

/-- One atomic step. Time never passes beyond a pending timer; the send on
the unbuffered channel `done` is a rendezvous with the select of the handler. -/
def step (s : State) : Event → Option State
  | Event.elapse d =>
      if (s.stopped = true ∨ s.now + d ≤ s.nextTick) ∧
         (s.main ≠ MainPc.sleeping ∨ s.now + d ≤ sleepFor) then
        some { s with now := s.now + d }
      else none
  | Event.fire =>
      if s.stopped = false ∧ s.now = s.nextTick then
        some { s with tickerC := s.tickerC.trySend s.now,
                      nextTick := s.nextTick + tickPeriod, fired := s.fired + 1 }
      else none
  | Event.wake =>
      if s.main = MainPc.sleeping ∧ s.now = sleepFor then
        some { s with main := MainPc.atStop }
      else none
  | Event.stop =>
      if s.main = MainPc.atStop then
        some { s with stopped := true, main := MainPc.atDone }
      else none
  | Event.handleTick =>
      match s.handler with
      | HandlerPc.atSelect =>
          match s.tickerC.recv with
          | some (t, c) => some { s with tickerC := c, out := s.out ++ [Output.tickAt t] }
          | none => none
      | HandlerPc.returned => none
  | Event.handleDone =>
      if s.main = MainPc.atDone ∧ s.handler = HandlerPc.atSelect then
        some { s with handler := HandlerPc.returned, main := MainPc.atPrint }
      else none
  | Event.printStopped =>
      if s.main = MainPc.atPrint then
        some { s with out := s.out ++ [Output.tickerStopped], main := MainPc.exited }
      else none

/-- Run a schedule. -/
def exec (s : State) : List Event → Option State
  | [] => some s
  | e :: es => (step s e).bind (fun s1 => exec s1 es)

/-- A timer is due or a goroutine can take a step. -/
def busy (s : State) : Bool :=
  [Event.fire, Event.wake, Event.stop, Event.handleTick, Event.handleDone,
    Event.printStopped].any (fun e => (step s e).isSome)

/-- One step on the ideal clock: statements take no time, so time passes only
when no timer is due and every goroutine is blocked. -/
def ustep (s : State) : Event → Option State
  | Event.elapse d => if d = 0 ∨ busy s = false then step s (Event.elapse d) else none
  | e => step s e

/-- Run a schedule on the ideal clock. -/
def uexec (s : State) : List Event → Option State
  | [] => some s
  | e :: es => (ustep s e).bind (fun s1 => uexec s1 es)

/-- Number of `Tick at` lines printed. -/
def handled (s : State) : Nat :=
  (s.out.filter (fun o => decide (o ≠ Output.tickerStopped))).length

/-- The output documented at the end of `tickers.go`. -/
def documented : List Output :=
  [Output.tickAt 500, Output.tickAt 1000, Output.tickAt 1500, Output.tickerStopped]

end Tickers

namespace WaitGroups

/-- Number of workers launched by `main`: `for i := 1; i <= 5; i++`. -/
def numWorkers : Nat := 5

/-- Program counter of a goroutine `func() { defer wg.Done(); worker(i) }()`:
at the first `Printf`, in `time.Sleep`, at the second `Printf`, at the
deferred `wg.Done()`, after it. -/
inductive WorkerPc where
  | starting
  | sleeping
  | finishing
  | deferred
  | exited
deriving DecidableEq, Repr

/-- A launched goroutine with its captured `i`. -/
structure Worker where
  id : Nat
  pc : WorkerPc
deriving DecidableEq, Repr

/-- Program counter of `main`: at the loop test and `wg.Add(1)`, at the `go`
statement, at `wg.Wait()`, after it. -/
inductive MainPc where
  | atAdd
  | atGo
  | atWait
  | returned
deriving DecidableEq, Repr

/-- A printed line. -/
inductive Output where
  | workerStarting (id : Nat)
  | workerDone (id : Nat)
deriving DecidableEq, Repr

/-- State of `wait-groups.go`. -/
structure State where
  counter : Int
  i : Nat
  main : MainPc
  workers : List Worker
  out : List Output
  panicked : Bool
deriving DecidableEq, Repr

/-- Events: a step of `main`, or a step of the `k`-th goroutine launched
(counted from 0). -/
inductive Event where
  | mainStep
  | workerStep (k : Nat)
deriving DecidableEq, Repr

/-- The method `wg.Add(delta)`: `none` is the panic
`sync: negative WaitGroup counter`. -/
def wgAdd (counter delta : Int) : Option Int :=
  if counter + delta < 0 then none else some (counter + delta)

/-- The method `wg.Done()`, which is `wg.Add(-1)`. -/
def wgDone (counter : Int) : Option Int := wgAdd counter (-1)

/-- State at the start of the launch loop. -/
def init : State :=
  { counter := 0, i := 1, main := MainPc.atAdd, workers := [], out := [], panicked := false }

/-- One atomic step of `main`. -/
def mainStep (s : State) : Option State :=
  match s.main with
  | MainPc.atAdd =>
      if s.i ≤ numWorkers then
        match wgAdd s.counter 1 with
        | some c => some { s with counter := c, main := MainPc.atGo }
        | none => some { s with panicked := true }
      else some { s with main := MainPc.atWait }
  | MainPc.atGo =>
      some { s with workers := s.workers ++ [{ id := s.i, pc := WorkerPc.starting }],
                    i := s.i + 1, main := MainPc.atAdd }
  | MainPc.atWait =>
      if s.counter = 0 then some { s with main := MainPc.returned } else none
  | MainPc.returned => none

/-- One atomic step of the `k`-th goroutine. -/
def workerStep (s : State) (k : Nat) : Option State :=
  match s.workers.get? k with
  | none => none
  | some w =>
      match w.pc with
      | WorkerPc.starting =>
          some { s with workers := s.workers.set k { w with pc := WorkerPc.sleeping },
                        out := s.out ++ [Output.workerStarting w.id] }
      | WorkerPc.sleeping =>
          some { s with workers := s.workers.set k { w with pc := WorkerPc.finishing } }
      | WorkerPc.finishing =>
          some { s with workers := s.workers.set k { w with pc := WorkerPc.deferred },
                        out := s.out ++ [Output.workerDone w.id] }
      | WorkerPc.deferred =>
          match wgDone s.counter with
          | some c => some { s with workers := s.workers.set k { w with pc := WorkerPc.exited },
                                    counter := c }
          | none => some { s with panicked := true }
      | WorkerPc.exited => none

/-- One atomic step; nothing runs after a panic. -/
def step (s : State) : Event → Option State
  | Event.mainStep => if s.panicked then none else mainStep s
  | Event.workerStep k => if s.panicked then none else workerStep s k

/-- Run a schedule. -/
def exec (s : State) : List Event → Option State
  | [] => some s
  | e :: es => (step s e).bind (fun s1 => exec s1 es)

/-- Number of goroutines that have not passed their `wg.Done()`. -/
def active (ws : List Worker) : Nat :=
  (ws.filter (fun w => decide (w.pc ≠ WorkerPc.exited))).length

/-- Launched workers that have not yet called `wg.Done()`: the goroutines
started by a `go` statement that have not passed their deferred call. -/
def launchedNotDone (s : State) : Nat := active s.workers

/-- Calls of `wg.Add(1)` minus calls of `wg.Done()`: the goroutines that have
not passed `wg.Done()`, and one more while `main` stands between `wg.Add(1)`
and the `go` statement. -/
def registered (s : State) : Nat :=
  active s.workers + (if s.main = MainPc.atGo then 1 else 0)

/-- The state after the first `wg.Add(1)`, before the first `go` statement. -/
def afterAdd : State :=
  { counter := 1, i := 1, main := MainPc.atGo, workers := [], out := [], panicked := false }

end WaitGroups

/-! ## Invariants -/

namespace RateLimiting

open Go

/-- Credits held by the replenisher: the tick it is blocked sending. -/
def ReplPc.held : ReplPc → Nat
  | ReplPc.atRange => 0
  | ReplPc.sending _ => 1

/-- The request taken off the queue and not yet served. -/
def LoopPc.held : LoopPc → List Nat
  | LoopPc.acquiring req => [req]
  | _ => []

/-- Inductive invariant of the bursty limiter, for every interleaving. -/
structure Bursty.Inv (s : Bursty) : Prop where
  limCap : s.burstyLimiter.cap = burstCap
  limLen : s.burstyLimiter.buf.length ≤ burstCap
  tickCap : s.tickC.cap = tickerCap
  tickLen : s.tickC.buf.length ≤ tickerCap
  balance : s.out.length + s.burstyLimiter.buf.length = burstCap + s.credits
  supply : s.credits + s.repl.held + s.tickC.buf.length ≤ s.ticks
  reqClosed : s.burstyRequests.closed = true
  ids : s.out.map Prod.fst = List.range' 1 s.out.length
  queue : s.loop.held ++ s.burstyRequests.buf = List.range' (s.out.length + 1) (5 - s.out.length)
  fin : s.loop = LoopPc.finished → s.burstyRequests.buf = []
  times : ∀ p ∈ s.out, period * p.1 ≤ p.2 + period * burstCap ∧ p.2 ≤ period * s.ticks
  served : s.out.length ≤ 5

end RateLimiting

namespace RateLimiting

open Go

/-- Tokens not yet granted: in the bucket, held by the replenisher, or
waiting in the channel of the ticker. -/
def Bursty.stock (s : Bursty) : Nat :=
  s.tokens + s.repl.held + s.tickC.buf.length

/-- A schedule in which two ticks fire before the request loop runs. -/
def Bursty.idleSchedule : List BEvent :=
  [BEvent.tick, BEvent.replRecv, BEvent.tick]

/-- The state after `Bursty.idleSchedule`: the bucket is full, the replenisher
is blocked sending the first tick, the second tick waits in the ticker
channel. -/
def Bursty.idle : Bursty :=
  { ticks := 2, tickC := ⟨1, [400], false⟩, burstyLimiter := ⟨3, [0, 0, 0], false⟩,
    burstyRequests := ⟨5, [1, 2, 3, 4, 5], true⟩, repl := ReplPc.sending 200,
    loop := LoopPc.atRange, out := [], credits := 0 }

/-- A schedule without a tick that serves all five requests from
`Bursty.idle`. -/
def Bursty.burstSchedule : List BEvent :=
  [BEvent.loopNext, BEvent.loopAcquire, BEvent.replSend,
   BEvent.loopNext, BEvent.loopAcquire, BEvent.replRecv, BEvent.replSend,
   BEvent.loopNext, BEvent.loopAcquire, BEvent.loopNext, BEvent.loopAcquire,
   BEvent.loopNext, BEvent.loopAcquire]

/-- The state after `Bursty.burstSchedule` from `Bursty.idle`. -/
def Bursty.burst : Bursty :=
  { ticks := 2, tickC := ⟨1, [], false⟩, burstyLimiter := ⟨3, [], false⟩,
    burstyRequests := ⟨5, [], true⟩, repl := ReplPc.atRange,
    loop := LoopPc.atRange, out := [(1, 400), (2, 400), (3, 400), (4, 400), (5, 400)],
    credits := 2 }

/-- The state after the first tick, before any request: the bucket is full
and the tick waits in the ticker channel. -/
def Bursty.full : Bursty :=
  { ticks := 1, tickC := ⟨1, [200], false⟩, burstyLimiter := ⟨3, [0, 0, 0], false⟩,
    burstyRequests := ⟨5, [1, 2, 3, 4, 5], true⟩, repl := ReplPc.atRange,
    loop := LoopPc.atRange, out := [], credits := 0 }

/-- The state after the replenisher took the tick off `Bursty.full`. -/
def Bursty.fullHeld : Bursty :=
  { Bursty.full with tickC := ⟨1, [], false⟩, repl := ReplPc.sending 200 }

/-- The state after one request was served from `Bursty.fullHeld` and the
blocked send completed. -/
def Bursty.fullLater : Bursty :=
  { ticks := 1, tickC := ⟨1, [], false⟩, burstyLimiter := ⟨3, [0, 0, 200], false⟩,
    burstyRequests := ⟨5, [2, 3, 4, 5], true⟩, repl := ReplPc.atRange,
    loop := LoopPc.atRange, out := [(1, 200)], credits := 1 }

end RateLimiting

namespace RateLimiting

open Go

/-- Output of the bursty batch documented at the end of `rate-limiting.go`,
with times counted from the start of the batch: requests 1, 2 and 3 at once,
request 4 after 200 ms, request 5 after 400 ms. -/
def Bursty.documented : List (Nat × Nat) :=
  [(1, 0), (2, 0), (3, 0), (4, 200), (5, 400)]

/-- The line printed for request `k` on the ideal clock. -/
def Bursty.grantOf (k : Nat) : Nat × Nat := (k, period * (k - burstCap))

/-- Invariant of the bursty limiter on the ideal clock: while the request
loop runs no tick is lost, and after the first tick at most one token is in
stock. -/
structure Bursty.UInv (s : Bursty) : Prop where
  inv : s.Inv
  exact : s.loop ≠ LoopPc.finished → s.credits + s.repl.held + s.tickC.buf.length = s.ticks
  late : s.loop ≠ LoopPc.finished → 1 ≤ s.ticks → s.stock ≤ 1
  outEq : s.out = (List.range' 1 s.out.length).map Bursty.grantOf

/-- The schedule of the bursty batch on the ideal clock. -/
def Bursty.idealSchedule : List BEvent :=
  [BEvent.loopNext, BEvent.loopAcquire, BEvent.loopNext, BEvent.loopAcquire,
   BEvent.loopNext, BEvent.loopAcquire, BEvent.loopNext,
   BEvent.tick, BEvent.replRecv, BEvent.replSend, BEvent.loopAcquire, BEvent.loopNext,
   BEvent.tick, BEvent.replRecv, BEvent.replSend, BEvent.loopAcquire, BEvent.loopNext]

/-- The state after `Bursty.idealSchedule`. -/
def Bursty.final : Bursty :=
  { ticks := 2, tickC := ⟨1, [], false⟩, burstyLimiter := ⟨3, [], false⟩,
    burstyRequests := ⟨5, [], true⟩, repl := ReplPc.atRange,
    loop := LoopPc.finished, out := Bursty.documented, credits := 2 }

end RateLimiting

namespace RateLimiting

open Go

/-- Inductive invariant of the basic limiter, for every interleaving. -/
structure Basic.Inv (s : Basic) : Prop where
  limCap : s.limiter.cap = tickerCap
  limLen : s.limiter.buf.length ≤ tickerCap
  supply : s.out.length + s.limiter.buf.length ≤ s.ticks
  reqClosed : s.requests.closed = true
  ids : s.out.map Prod.fst = List.range' 1 s.out.length
  queue : s.loop.held ++ s.requests.buf = List.range' (s.out.length + 1) (5 - s.out.length)
  fin : s.loop = LoopPc.finished → s.requests.buf = []
  times : ∀ p ∈ s.out, period * p.1 ≤ p.2 ∧ p.2 ≤ period * s.ticks
  served : s.out.length ≤ 5

/-- Output of the first batch documented at the end of `rate-limiting.go`,
with times counted from the creation of the ticker: one request every
200 ms. -/
def Basic.documented : List (Nat × Nat) :=
  [(1, 200), (2, 400), (3, 600), (4, 800), (5, 1000)]

/-- The line printed for request `k` on the ideal clock. -/
def Basic.serveOf (k : Nat) : Nat × Nat := (k, period * k)

/-- Invariant of the basic limiter on the ideal clock: while the request loop
runs no tick is lost. -/
structure Basic.UInv (s : Basic) : Prop where
  inv : s.Inv
  exact : s.loop ≠ LoopPc.finished → s.out.length + s.limiter.buf.length = s.ticks
  outEq : s.out = (List.range' 1 s.out.length).map Basic.serveOf

/-- The schedule of the first batch on the ideal clock. -/
def Basic.idealSchedule : List LEvent :=
  [LEvent.loopNext, LEvent.tick, LEvent.loopAcquire,
   LEvent.loopNext, LEvent.tick, LEvent.loopAcquire,
   LEvent.loopNext, LEvent.tick, LEvent.loopAcquire,
   LEvent.loopNext, LEvent.tick, LEvent.loopAcquire,
   LEvent.loopNext, LEvent.tick, LEvent.loopAcquire, LEvent.loopNext]

/-- The state after `Basic.idealSchedule`. -/
def Basic.final : Basic :=
  { ticks := 5, limiter := ⟨1, [], false⟩, requests := ⟨5, [], true⟩,
    loop := LoopPc.finished, out := Basic.documented }

/-- The ids of the requests, in the order in which they were queued. -/
def queued : List Nat := [1, 2, 3, 4, 5]

end RateLimiting

namespace Tickers

open Go

/-- What `main` has printed: `Ticker stopped` once it is past its `Println`. -/
def mainOut (m : MainPc) : List Output :=
  if m = MainPc.exited then [Output.tickerStopped] else []

/-- The line printed for the `k`-th tick. -/
def tickLine (k : Nat) : Output := Output.tickAt (tickPeriod * k)

/-- The `Tick at` lines of an output. -/
def tickLines (out : List Output) : List Output :=
  out.filter (fun o => decide (o ≠ Output.tickerStopped))

/-- Inductive invariant of `tickers.go`, for every interleaving. -/
structure Inv (s : State) : Prop where
  stopFlag : s.stopped = true ↔
    (s.main = MainPc.atDone ∨ s.main = MainPc.atPrint ∨ s.main = MainPc.exited)
  handlerPc : s.handler = HandlerPc.returned ↔
    (s.main = MainPc.atPrint ∨ s.main = MainPc.exited)
  outShape : s.out = tickLines s.out ++ mainOut s.main

/-- Invariant of `tickers.go` on the ideal clock. -/
structure UInv (s : State) : Prop where
  inv : Inv s
  cap : s.tickerC.cap = tickerCap
  next : s.nextTick = tickPeriod * (s.fired + 1)
  past : tickPeriod * s.fired ≤ s.now
  ahead : s.stopped = false → s.now ≤ s.nextTick
  asleep : s.main = MainPc.sleeping → s.now ≤ sleepFor
  awake : s.main ≠ MainPc.sleeping → s.fired = 3 ∧ s.tickerC.buf = []
  atOnce : s.main = MainPc.atStop → s.now = sleepFor
  pending : s.tickerC.buf = [] ∨
    (s.tickerC.buf = [tickPeriod * s.fired] ∧ s.now = tickPeriod * s.fired ∧ 1 ≤ s.fired)
  outEq : s.out =
    (List.range' 1 (s.fired - s.tickerC.buf.length)).map tickLine ++ mainOut s.main

/-- The schedule of `tickers.go` on the ideal clock. -/
def idealSchedule : List Event :=
  [Event.elapse 500, Event.fire, Event.handleTick,
   Event.elapse 500, Event.fire, Event.handleTick,
   Event.elapse 500, Event.fire, Event.handleTick,
   Event.elapse 100, Event.wake, Event.stop, Event.handleDone, Event.printStopped]

/-- The state after `idealSchedule`. -/
def final : State :=
  { now := 1600, nextTick := 2000, stopped := true, tickerC := ⟨1, [], false⟩, fired := 3,
    handler := HandlerPc.returned, main := MainPc.exited, out := documented }

/-- The schedule up to `ticker.Stop()`, before the done signal is delivered. -/
def stopSchedule : List Event :=
  [Event.elapse 500, Event.fire, Event.handleTick,
   Event.elapse 500, Event.fire, Event.handleTick,
   Event.elapse 500, Event.fire, Event.handleTick,
   Event.elapse 100, Event.wake, Event.stop]

/-- The state after `stopSchedule`: the ticker is stopped and `main` stands at
`done <- true`. -/
def stopping : State :=
  { now := 1600, nextTick := 2000, stopped := true, tickerC := ⟨1, [], false⟩, fired := 3,
    handler := HandlerPc.atSelect, main := MainPc.atDone,
    out := [Output.tickAt 500, Output.tickAt 1000, Output.tickAt 1500] }

/-- The state after the done signal is delivered in `stopping`. -/
def halted : State :=
  { now := 1600, nextTick := 2000, stopped := true, tickerC := ⟨1, [], false⟩, fired := 3,
    handler := HandlerPc.returned, main := MainPc.atPrint,
    out := [Output.tickAt 500, Output.tickAt 1000, Output.tickAt 1500] }

/-- A schedule run after the done signal: an hour passes before and after
`main` prints. -/
def afterSchedule : List Event :=
  [Event.elapse 3600000, Event.printStopped, Event.elapse 3600000]

/-- The state after `afterSchedule` from `halted`. -/
def muchLater : State :=
  { final with now := 7201600 }

end Tickers

namespace WaitGroups

/-- Inductive invariant of `wait-groups.go`, for every interleaving. -/
structure Inv (s : State) : Prop where
  noPanic : s.panicked = false
  count : s.counter = (registered s : Int)
  ids : s.workers.map Worker.id = List.range' 1 s.workers.length
  launched : s.workers.length + 1 = s.i
  atGo : s.main = MainPc.atGo → s.i ≤ numWorkers
  bound : s.i ≤ numWorkers + 1
  past : (s.main = MainPc.atWait ∨ s.main = MainPc.returned) → s.i = numWorkers + 1
  printed : ∀ w ∈ s.workers, (w.pc = WorkerPc.deferred ∨ w.pc = WorkerPc.exited) →
    Output.workerDone w.id ∈ s.out
  ret : s.main = MainPc.returned → s.counter = 0

/-- A schedule: the five workers are launched, run one after the other, and
`main` passes `wg.Wait()`. -/
def fullSchedule : List Event :=
  [Event.mainStep, Event.mainStep, Event.mainStep, Event.mainStep, Event.mainStep,
   Event.mainStep, Event.mainStep, Event.mainStep, Event.mainStep, Event.mainStep,
   Event.mainStep,
   Event.workerStep 1, Event.workerStep 1, Event.workerStep 1, Event.workerStep 1,
   Event.workerStep 4, Event.workerStep 4, Event.workerStep 4, Event.workerStep 4,
   Event.workerStep 2, Event.workerStep 2, Event.workerStep 2, Event.workerStep 2,
   Event.workerStep 0, Event.workerStep 0, Event.workerStep 0, Event.workerStep 0,
   Event.workerStep 3, Event.workerStep 3, Event.workerStep 3, Event.workerStep 3,
   Event.mainStep]

/-- The state after `fullSchedule`. -/
def final : State :=
  { counter := 0, i := 6, main := MainPc.returned,
    workers := [⟨1, WorkerPc.exited⟩, ⟨2, WorkerPc.exited⟩, ⟨3, WorkerPc.exited⟩,
                ⟨4, WorkerPc.exited⟩, ⟨5, WorkerPc.exited⟩],
    out := [Output.workerStarting 2, Output.workerDone 2,
            Output.workerStarting 5, Output.workerDone 5,
            Output.workerStarting 3, Output.workerDone 3,
            Output.workerStarting 1, Output.workerDone 1,
            Output.workerStarting 4, Output.workerDone 4],
    panicked := false }

end WaitGroups

namespace RateLimiting

open Go

/-- Steps the request loop of the basic limiter still has to take, at most. -/
def Basic.todo (s : Basic) : Nat :=
  2 * (5 - s.out.length) + (match s.loop with | LoopPc.atRange => 1 | _ => 0)

/-- Steps the request loop of the bursty limiter still has to take, at most. -/
def Bursty.todo (s : Bursty) : Nat :=
  2 * (5 - s.out.length) + (match s.loop with | LoopPc.atRange => 1 | _ => 0)

/-- A schedule without a tick that serves four requests from
`Bursty.fullHeld`. -/
def Bursty.fourSchedule : List BEvent :=
  [BEvent.loopNext, BEvent.loopAcquire, BEvent.replSend,
   BEvent.loopNext, BEvent.loopAcquire, BEvent.loopNext, BEvent.loopAcquire,
   BEvent.loopNext, BEvent.loopAcquire]

/-- The state after `Bursty.fourSchedule` from `Bursty.fullHeld`. -/
def Bursty.fullBurst : Bursty :=
  { ticks := 1, tickC := ⟨1, [], false⟩, burstyLimiter := ⟨3, [], false⟩,
    burstyRequests := ⟨5, [5], true⟩, repl := ReplPc.atRange,
    loop := LoopPc.atRange, out := [(1, 200), (2, 200), (3, 200), (4, 200)], credits := 1 }

end RateLimiting

/-! ## Channels -/

namespace Go

theorem Chan.recv_some {α : Type} {c c1 : Chan α} {v : α} (h : c.recv = some (v, c1)) :
    c.buf = v :: c1.buf ∧ c1.cap = c.cap ∧ c1.closed = c.closed := by
  unfold Chan.recv at h
  split at h
  · cases h
  · rename_i w rest hb
    cases h
    exact ⟨hb, rfl, rfl⟩

theorem Chan.recv_none {α : Type} {c : Chan α} (h : c.recv = none) : c.buf = [] := by
  unfold Chan.recv at h
  split at h
  · assumption
  · cases h

theorem Chan.send_some {α : Type} {c c1 : Chan α} {v : α} (h : c.send v = some c1) :
    c.buf.length < c.cap ∧ c1.buf = c.buf ++ [v] ∧ c1.cap = c.cap ∧ c1.closed = c.closed := by
  unfold Chan.send at h
  split at h
  · rename_i hlt
    cases h
    exact ⟨hlt, rfl, rfl, rfl⟩
  · cases h

theorem Chan.send_none {α : Type} {c : Chan α} {v : α} (h : c.send v = none) :
    c.cap ≤ c.buf.length := by
  unfold Chan.send at h
  split at h
  · cases h
  · omega

theorem Chan.trySend_cap {α : Type} (c : Chan α) (v : α) : (c.trySend v).cap = c.cap := by
  unfold Chan.trySend
  split <;> rfl

theorem Chan.trySend_closed {α : Type} (c : Chan α) (v : α) :
    (c.trySend v).closed = c.closed := by
  unfold Chan.trySend
  split <;> rfl

theorem Chan.trySend_buf {α : Type} (c : Chan α) (v : α) :
    (c.trySend v).buf = if c.buf.length < c.cap then c.buf ++ [v] else c.buf := by
  unfold Chan.trySend
  split <;> rfl

end Go

/-! ## The bursty limiter -/

namespace RateLimiting

open Go

theorem bursty_setup_eq : Bursty.setup = some
    { ticks := 0, tickC := ⟨1, [], false⟩, burstyLimiter := ⟨3, [0, 0, 0], false⟩,
      burstyRequests := ⟨5, [1, 2, 3, 4, 5], true⟩, repl := ReplPc.atRange,
      loop := LoopPc.atRange, out := [], credits := 0 } := by
  rfl

theorem bursty_inv_setup {s : Bursty} (h : Bursty.setup = some s) : s.Inv := by
  rw [bursty_setup_eq] at h
  cases h
  constructor <;> simp [burstCap, tickerCap, ReplPc.held, LoopPc.held, List.range']

theorem range_head {a n : Nat} {rest : List Nat}
    (h : a :: rest = List.range' (n + 1) (5 - n)) :
    a = n + 1 ∧ n < 5 ∧ rest = List.range' (n + 2) (5 - (n + 1)) := by
  have hn : n < 5 := by
    by_contra hc
    have : 5 - n = 0 := by omega
    rw [this] at h
    simp at h
  obtain ⟨m, hm⟩ : ∃ m, 5 - n = m + 1 := ⟨4 - n, by omega⟩
  rw [hm, List.range'_succ] at h
  have hm2 : 5 - (n + 1) = m := by omega
  rw [hm2]
  injection h with h1 h2
  exact ⟨h1, hn, h2⟩

theorem bursty_inv_step {s s1 : Bursty} {e : BEvent} (hi : s.Inv) (h : s.step e = some s1) :
    s1.Inv := by
  obtain ⟨limCap, limLen, tickCap, tickLen, balance, supply, reqClosed, ids, queue, fin, times, served⟩ := hi
  cases e with
  | tick =>
    simp only [Bursty.step, Option.some.injEq] at h
    subst h
    refine ⟨limCap, limLen, ?_, ?_, balance, ?_, reqClosed, ids, queue, fin, ?_, served⟩
    · simpa [Chan.trySend_cap] using tickCap
    · dsimp only
      rw [Chan.trySend_buf]
      split
      · simp only [List.length_append, List.length_singleton]; omega
      · exact tickLen
    · dsimp only
      rw [Chan.trySend_buf]
      split
      · simp only [List.length_append, List.length_singleton]
        simp only [tickerCap] at *
        omega
      · omega
    · intro p hp
      have := times p hp
      simp only [period] at this ⊢
      omega
  | replRecv =>
    cases hr : s.repl with
    | sending t => simp [Bursty.step, hr] at h
    | atRange =>
      cases hrecv : s.tickC.recv with
      | none => simp [Bursty.step, hr, hrecv] at h
      | some p =>
        obtain ⟨t, c⟩ := p
        simp only [Bursty.step, hr, hrecv, Option.some.injEq] at h
        subst h
        obtain ⟨hb, hc, _⟩ := Chan.recv_some hrecv
        rw [hb] at tickLen supply
        rw [hr] at supply
        simp only [List.length_cons, ReplPc.held] at tickLen supply
        refine ⟨limCap, limLen, ?_, ?_, balance, ?_, reqClosed, ids, queue, fin, times, served⟩
        · simpa [hc] using tickCap
        · dsimp only; omega
        · dsimp only [ReplPc.held]; omega
  | replSend =>
    cases hr : s.repl with
    | atRange => simp [Bursty.step, hr] at h
    | sending t =>
      cases hsend : s.burstyLimiter.send t with
      | none => simp [Bursty.step, hr, hsend] at h
      | some c =>
        simp only [Bursty.step, hr, hsend, Option.some.injEq] at h
        subst h
        obtain ⟨hlt, hb, hc, _⟩ := Chan.send_some hsend
        rw [hr] at supply
        simp only [ReplPc.held] at supply
        refine ⟨?_, ?_, tickCap, tickLen, ?_, ?_, reqClosed, ids, queue, fin, times, served⟩
        · simpa [hc] using limCap
        · dsimp only
          rw [hb, List.length_append, List.length_singleton]
          omega
        · dsimp only
          rw [hb, List.length_append, List.length_singleton]
          omega
        · dsimp only [ReplPc.held]; omega
  | loopNext =>
    cases hl : s.loop with
    | acquiring r => simp [Bursty.step, hl] at h
    | finished => simp [Bursty.step, hl] at h
    | atRange =>
      rw [hl] at queue
      simp only [LoopPc.held, List.nil_append] at queue
      cases hrecv : s.burstyRequests.recv with
      | none =>
        simp only [Bursty.step, hl, hrecv, reqClosed, if_true, Option.some.injEq] at h
        subst h
        refine ⟨limCap, limLen, tickCap, tickLen, balance, supply, reqClosed, ids, ?_, ?_, times, served⟩
        · simpa [LoopPc.held] using queue
        · intro _; exact Chan.recv_none hrecv
      | some p =>
        obtain ⟨req, c⟩ := p
        simp only [Bursty.step, hl, hrecv, Option.some.injEq] at h
        subst h
        obtain ⟨hb, _, hcl⟩ := Chan.recv_some hrecv
        refine ⟨limCap, limLen, tickCap, tickLen, balance, supply, ?_, ids, ?_, ?_, times, served⟩
        · simpa [hcl] using reqClosed
        · simpa [hb, LoopPc.held] using queue
        · intro hf; cases hf
  | loopAcquire =>
    cases hl : s.loop with
    | atRange => simp [Bursty.step, hl] at h
    | finished => simp [Bursty.step, hl] at h
    | acquiring req =>
      cases hrecv : s.burstyLimiter.recv with
      | none => simp [Bursty.step, hl, hrecv] at h
      | some p =>
        obtain ⟨t, c⟩ := p
        simp only [Bursty.step, hl, hrecv, Option.some.injEq] at h
        subst h
        obtain ⟨hb, hc, _⟩ := Chan.recv_some hrecv
        rw [hl] at queue
        simp only [LoopPc.held, List.singleton_append] at queue
        obtain ⟨hreq, hn, hrest⟩ := range_head queue
        rw [hb] at limLen balance
        simp only [List.length_cons] at limLen balance
        refine ⟨?_, ?_, tickCap, tickLen, ?_, supply, reqClosed, ?_, ?_, ?_, ?_, ?_⟩
        · simpa [hc] using limCap
        · dsimp only; omega
        · dsimp only
          rw [List.length_append, List.length_singleton]
          omega
        · simp [ids, hreq, List.range'_concat]
          omega
        · simpa [LoopPc.held] using hrest
        · intro hf; cases hf
        · intro p hp
          simp only [List.mem_append, List.mem_singleton] at hp
          rcases hp with hp | hp
          · exact times p hp
          · subst hp
            simp only [Bursty.now, period, burstCap, hreq, tickerCap] at *
            omega
        · dsimp only
          rw [List.length_append, List.length_singleton]
          omega

theorem bursty_inv_exec {es : List BEvent} : ∀ {s s1 : Bursty}, s.Inv → s.exec es = some s1 → s1.Inv := by
  induction es with
  | nil =>
    intro s s1 hi h
    simp only [Bursty.exec, Option.some.injEq] at h
    exact h ▸ hi
  | cons e es ih =>
    intro s s1 hi h
    cases hs : s.step e with
    | none => simp [Bursty.exec, hs] at h
    | some s2 =>
      simp only [Bursty.exec, hs, Option.some_bind] at h
      exact ih (bursty_inv_step hi hs) h

theorem bursty_inv_run {es : List BEvent} {s : Bursty} (h : Bursty.run es = some s) : s.Inv := by
  unfold Bursty.run at h
  cases h0 : Bursty.setup with
  | none => simp [h0] at h
  | some s0 =>
    simp only [h0, Option.some_bind] at h
    exact bursty_inv_exec (bursty_inv_setup h0) h

/-- C1. Capacity invariant of the bursty limiter: in every state reachable by
any interleaving of ticks, replenisher steps and request steps, the balance
`3 + credits - debits` is the number of tokens held in the bucket and lies
between 0 and 3; a debit is blocked on an empty bucket and a credit is blocked
on a full one. -/
theorem bursty_capacity_invariant (es : List BEvent) (s : Bursty)
    (h : Bursty.run es = some s) :
    (0 : Int) ≤ (burstCap : Int) + s.credits - s.granted ∧
    (burstCap : Int) + s.credits - s.granted = s.tokens ∧
    s.tokens ≤ burstCap ∧
    (s.tokens = 0 → s.step BEvent.loopAcquire = none) ∧
    (s.tokens = burstCap → s.step BEvent.replSend = none) := by
  have hi := bursty_inv_run h
  have hb := hi.balance
  have hl := hi.limLen
  simp only [Bursty.granted, Bursty.tokens] at *
  refine ⟨by omega, by omega, hl, ?_, ?_⟩
  · intro h0
    have hnil : s.burstyLimiter.buf = [] := List.length_eq_zero.mp h0
    cases hp : s.loop <;> simp [Bursty.step, hp, Chan.recv, hnil]
  · intro h3
    cases hp : s.repl <;> simp [Bursty.step, hp, Chan.send, h3, hi.limCap]

theorem bursty_capacity_invariant_witness :
    Bursty.run Bursty.idleSchedule = some Bursty.idle ∧
    (0 : Int) ≤ (burstCap : Int) + Bursty.idle.credits - Bursty.idle.granted ∧
    (burstCap : Int) + Bursty.idle.credits - Bursty.idle.granted = Bursty.idle.tokens ∧
    Bursty.idle.tokens ≤ burstCap ∧
    (Bursty.idle.tokens = 0 → Bursty.idle.step BEvent.loopAcquire = none) ∧
    (Bursty.idle.tokens = burstCap → Bursty.idle.step BEvent.replSend = none) :=
  ⟨rfl, bursty_capacity_invariant Bursty.idleSchedule Bursty.idle rfl⟩

/-- C3, evaluated on the code: after an idle period in which two ticks fired
(the bucket is full, the replenisher is blocked in its send holding the first
tick and the second tick waits in the channel of the ticker), all five
requests are admitted back-to-back although no further tick fires. -/
theorem bursty_burst_of_five_after_idle :
    Bursty.run Bursty.idleSchedule = some Bursty.idle ∧
    Bursty.idle.tokens = burstCap ∧
    BEvent.tick ∉ Bursty.burstSchedule ∧
    Bursty.idle.exec Bursty.burstSchedule = some Bursty.burst ∧
    Bursty.burst.ticks = Bursty.idle.ticks ∧
    Bursty.burst.granted = Bursty.idle.granted + 5 := by
  refine ⟨rfl, rfl, by decide, rfl, rfl, rfl⟩

/-- C5. Overall rate limit: in every execution prefix the number of requests
granted is at most 3 plus the number of ticks fired; every token granted or
still in stock comes from the initial fill of 3 or from a tick. -/
theorem bursty_rate_limit (es : List BEvent) (s : Bursty) (h : Bursty.run es = some s) :
    s.granted ≤ burstCap + s.ticks ∧
    s.granted + s.stock ≤ burstCap + s.ticks ∧
    s.granted + s.tokens = burstCap + s.credits ∧
    s.credits ≤ s.ticks := by
  have hi := bursty_inv_run h
  have hb := hi.balance
  have hs := hi.supply
  simp only [Bursty.granted, Bursty.tokens, Bursty.stock] at *
  refine ⟨by omega, by omega, hb, by omega⟩

theorem bursty_rate_limit_witness :
    Bursty.run (Bursty.idleSchedule ++ Bursty.burstSchedule) = some Bursty.burst ∧
    Bursty.burst.granted ≤ burstCap + Bursty.burst.ticks ∧
    Bursty.burst.granted + Bursty.burst.stock ≤ burstCap + Bursty.burst.ticks ∧
    Bursty.burst.granted + Bursty.burst.tokens = burstCap + Bursty.burst.credits ∧
    Bursty.burst.credits ≤ Bursty.burst.ticks :=
  ⟨rfl, bursty_rate_limit (Bursty.idleSchedule ++ Bursty.burstSchedule) Bursty.burst rfl⟩

/-- C4, evaluated on the code: a tick that reaches the replenisher while the
bucket holds 3 tokens is not dropped. The replenisher keeps it (the state
changes), the credit is added once a later debit has made room, and so four
requests are admitted back-to-back with no further tick. -/
theorem bursty_tick_on_full_bucket_is_kept :
    Bursty.run [BEvent.tick] = some Bursty.full ∧
    Bursty.full.tokens = burstCap ∧
    Bursty.full.step BEvent.replRecv = some Bursty.fullHeld ∧
    Bursty.fullHeld ≠ Bursty.full ∧
    Bursty.fullHeld.repl.held = 1 ∧
    Bursty.fullHeld.exec [BEvent.loopNext, BEvent.loopAcquire, BEvent.replSend]
      = some Bursty.fullLater ∧
    Bursty.fullLater.tokens = burstCap ∧
    Bursty.fullLater.credits = Bursty.fullHeld.credits + 1 ∧
    BEvent.tick ∉ Bursty.fourSchedule ∧
    Bursty.fullHeld.exec Bursty.fourSchedule = some Bursty.fullBurst ∧
    Bursty.fullBurst.ticks = Bursty.fullHeld.ticks ∧
    Bursty.fullBurst.granted = Bursty.fullHeld.granted + 4 := by
  refine ⟨rfl, rfl, rfl, by decide, rfl, rfl, rfl, rfl, by decide, rfl, rfl, rfl⟩

/-- The cap on the bucket. When a tick reaches the replenisher while
the bucket holds 3 tokens, the bucket is unchanged and the balance stays 3, and
no credit can be added to the full bucket. A credit is added only while the
bucket holds fewer than 3 tokens and raises the balance by
`min(1, 3 - tokens)`, which is 1, so the balance never exceeds 3. -/
theorem bursty_credit_capped (es : List BEvent) (s : Bursty) (h : Bursty.run es = some s) :
    (∀ s1, s.tokens = burstCap → s.step BEvent.replRecv = some s1 →
      s1.burstyLimiter = s.burstyLimiter ∧ s1.tokens = burstCap ∧ s1.granted = s.granted ∧
      s1.step BEvent.replSend = none) ∧
    (∀ s1, s.step BEvent.replSend = some s1 →
      s.tokens < burstCap ∧ s1.tokens = s.tokens + min 1 (burstCap - s.tokens) ∧
      s1.tokens ≤ burstCap) := by
  have hi := bursty_inv_run h
  constructor
  · intro s1 hfull hstep
    cases hr : s.repl with
    | sending t => simp [Bursty.step, hr] at hstep
    | atRange =>
      cases hrecv : s.tickC.recv with
      | none => simp [Bursty.step, hr, hrecv] at hstep
      | some p =>
        obtain ⟨t, c⟩ := p
        simp only [Bursty.step, hr, hrecv, Option.some.injEq] at hstep
        subst hstep
        simp only [Bursty.tokens] at hfull
        refine ⟨rfl, hfull, rfl, ?_⟩
        simp [Bursty.step, Chan.send, hfull, hi.limCap]
  · intro s1 hstep
    cases hr : s.repl with
    | atRange => simp [Bursty.step, hr] at hstep
    | sending t =>
      cases hsend : s.burstyLimiter.send t with
      | none => simp [Bursty.step, hr, hsend] at hstep
      | some c =>
        simp only [Bursty.step, hr, hsend, Option.some.injEq] at hstep
        subst hstep
        obtain ⟨hlt, hb, _, _⟩ := Chan.send_some hsend
        have hcap := hi.limCap
        simp only [Bursty.tokens, hb, List.length_append, List.length_singleton,
          burstCap] at *
        have hlt3 : s.burstyLimiter.buf.length < 3 := by omega
        have hmin : min 1 (3 - s.burstyLimiter.buf.length) = 1 := Nat.min_eq_left (by omega)
        exact ⟨hlt3, by rw [hmin], by omega⟩

theorem bursty_credit_capped_witness :
    Bursty.run [BEvent.tick] = some Bursty.full ∧
    (Bursty.fullHeld.burstyLimiter = Bursty.full.burstyLimiter ∧
      Bursty.fullHeld.tokens = burstCap ∧ Bursty.fullHeld.granted = Bursty.full.granted ∧
      Bursty.fullHeld.step BEvent.replSend = none) :=
  ⟨rfl, (bursty_credit_capped [BEvent.tick] Bursty.full rfl).1 Bursty.fullHeld rfl rfl⟩

/-! ### The bursty limiter on the ideal clock -/

theorem bursty_ustep_step {s s1 : Bursty} {e : BEvent} (h : s.ustep e = some s1) :
    s.step e = some s1 := by
  cases e <;> simp only [Bursty.ustep] at h <;> try exact h
  split at h
  · cases h
  · exact h

theorem bursty_ustep_tick {s s1 : Bursty} (h : s.ustep BEvent.tick = some s1) :
    s.busy = false := by
  simp only [Bursty.ustep] at h
  split at h
  · cases h
  · simpa using ‹¬ s.busy = true›

theorem bursty_quiet {s : Bursty} (hi : s.Inv) (hb : s.busy = false)
    (hl : s.loop ≠ LoopPc.finished) :
    s.tokens = 0 ∧ s.repl.held = 0 ∧ s.tickC.buf = [] := by
  simp only [Bursty.busy, List.any_cons, List.any_nil, Bool.or_false, Bool.or_eq_false_iff,
    ← Option.not_isSome, Bool.not_eq_true, Option.not_isSome_iff_eq_none] at hb
  obtain ⟨h1, h2, h3, h4⟩ := hb
  have hclosed := hi.reqClosed
  have htok : s.tokens = 0 := by
    cases hp : s.loop with
    | finished => exact absurd hp hl
    | atRange =>
      cases hrecv : s.burstyRequests.recv with
      | none => simp [Bursty.step, hp, hrecv, hclosed] at h3
      | some p => simp [Bursty.step, hp, hrecv] at h3
    | acquiring r =>
      cases hrecv : s.burstyLimiter.recv with
      | none => simp [Bursty.tokens, Chan.recv_none hrecv]
      | some p => simp [Bursty.step, hp, hrecv] at h4
  have hheld : s.repl.held = 0 := by
    cases hp : s.repl with
    | atRange => rfl
    | sending t =>
      cases hsend : s.burstyLimiter.send t with
      | none =>
        have := Chan.send_none hsend
        have hcap := hi.limCap
        simp only [Bursty.tokens, burstCap] at *
        omega
      | some c => simp [Bursty.step, hp, hsend] at h2
  refine ⟨htok, hheld, ?_⟩
  cases hp : s.repl with
  | sending t => simp [hp, ReplPc.held] at hheld
  | atRange =>
    cases hrecv : s.tickC.recv with
    | none => exact Chan.recv_none hrecv
    | some p => simp [Bursty.step, hp, hrecv] at h1

theorem bursty_uinv_setup {s : Bursty} (h : Bursty.setup = some s) : s.UInv := by
  have hi := bursty_inv_setup h
  rw [bursty_setup_eq] at h
  cases h
  refine ⟨hi, ?_, ?_, ?_⟩ <;> simp [ReplPc.held]

theorem bursty_uinv_step {s s1 : Bursty} {e : BEvent} (hu : s.UInv) (h : s.ustep e = some s1) :
    s1.UInv := by
  have hstep := bursty_ustep_step h
  have hi1 := bursty_inv_step hu.inv hstep
  obtain ⟨hi, hexact, hlate, hout⟩ := hu
  cases e with
  | tick =>
    have hbusy := bursty_ustep_tick h
    simp only [Bursty.step, Option.some.injEq] at hstep
    subst hstep
    refine ⟨hi1, ?_, ?_, hout⟩
    · intro hl
      obtain ⟨h0, h1, h2⟩ := bursty_quiet hi hbusy hl
      have hx := hexact hl
      have hc := hi.tickCap
      simp only [Chan.trySend_buf, h2, hc, tickerCap, List.length_nil, Nat.lt_one_iff,
        if_true, List.nil_append, List.length_singleton] at hx ⊢
      omega
    · intro hl _
      obtain ⟨h0, h1, h2⟩ := bursty_quiet hi hbusy hl
      have hc := hi.tickCap
      simp only [Bursty.stock, Bursty.tokens] at h0 ⊢
      simp only [Chan.trySend_buf, h2, hc, tickerCap, List.length_nil, Nat.lt_one_iff,
        if_true, List.nil_append, List.length_singleton]
      omega
  | replRecv =>
    cases hr : s.repl with
    | sending t => simp [Bursty.step, hr] at hstep
    | atRange =>
      cases hrecv : s.tickC.recv with
      | none => simp [Bursty.step, hr, hrecv] at hstep
      | some p =>
        obtain ⟨t, c⟩ := p
        simp only [Bursty.step, hr, hrecv, Option.some.injEq] at hstep
        subst hstep
        obtain ⟨hb, _, _⟩ := Chan.recv_some hrecv
        refine ⟨hi1, ?_, ?_, hout⟩
        · intro hl
          have := hexact hl
          rw [hr, hb] at this
          simp only [ReplPc.held, List.length_cons] at this
          dsimp only [ReplPc.held]
          omega
        · intro hl ht
          have := hlate hl ht
          simp only [Bursty.stock, Bursty.tokens, hr, hb, ReplPc.held, List.length_cons] at this
          dsimp only [Bursty.stock, Bursty.tokens, ReplPc.held]
          omega
  | replSend =>
    cases hr : s.repl with
    | atRange => simp [Bursty.step, hr] at hstep
    | sending t =>
      cases hsend : s.burstyLimiter.send t with
      | none => simp [Bursty.step, hr, hsend] at hstep
      | some c =>
        simp only [Bursty.step, hr, hsend, Option.some.injEq] at hstep
        subst hstep
        obtain ⟨_, hb, _, _⟩ := Chan.send_some hsend
        refine ⟨hi1, ?_, ?_, hout⟩
        · intro hl
          have := hexact hl
          rw [hr] at this
          simp only [ReplPc.held] at this
          dsimp only [ReplPc.held]
          omega
        · intro hl ht
          have := hlate hl ht
          simp only [Bursty.stock, Bursty.tokens, hr, ReplPc.held] at this
          dsimp only [Bursty.stock, Bursty.tokens, ReplPc.held]
          rw [hb, List.length_append, List.length_singleton]
          omega
  | loopNext =>
    cases hl : s.loop with
    | acquiring r => simp [Bursty.step, hl] at hstep
    | finished => simp [Bursty.step, hl] at hstep
    | atRange =>
      have hne : s.loop ≠ LoopPc.finished := by simp [hl]
      cases hrecv : s.burstyRequests.recv with
      | none =>
        simp only [Bursty.step, hl, hrecv, hi.reqClosed, if_true, Option.some.injEq] at hstep
        subst hstep
        exact ⟨hi1, fun hf => absurd rfl hf, fun hf => absurd rfl hf, hout⟩
      | some p =>
        obtain ⟨req, c⟩ := p
        simp only [Bursty.step, hl, hrecv, Option.some.injEq] at hstep
        subst hstep
        exact ⟨hi1, fun _ => hexact hne, fun _ ht => hlate hne ht, hout⟩
  | loopAcquire =>
    cases hl : s.loop with
    | atRange => simp [Bursty.step, hl] at hstep
    | finished => simp [Bursty.step, hl] at hstep
    | acquiring req =>
      have hne : s.loop ≠ LoopPc.finished := by simp [hl]
      cases hrecv : s.burstyLimiter.recv with
      | none => simp [Bursty.step, hl, hrecv] at hstep
      | some p =>
        obtain ⟨t, c⟩ := p
        simp only [Bursty.step, hl, hrecv, Option.some.injEq] at hstep
        subst hstep
        obtain ⟨hb, _, _⟩ := Chan.recv_some hrecv
        have hq := hi.queue
        rw [hl] at hq
        simp only [LoopPc.held, List.singleton_append] at hq
        obtain ⟨hreq, hn, _⟩ := range_head hq
        have hbal := hi.balance
        have hx := hexact hne
        have hlt := hlate hne
        simp only [Bursty.stock, Bursty.tokens, hb, List.length_cons, burstCap] at hbal hlt
        have hticks : s.ticks = s.out.length + 1 - burstCap := by
          simp only [burstCap]
          omega
        refine ⟨hi1, ?_, ?_, ?_⟩
        · intro _
          exact hx
        · intro _ ht
          have := hlt ht
          simp only [Bursty.stock, Bursty.tokens]
          omega
        · simp only [List.length_append, List.length_singleton, List.range'_concat,
            List.map_append, List.map_cons, List.map_nil, ← hout]
          simp only [Bursty.grantOf, Bursty.now, hreq, hticks, Nat.one_mul, Nat.add_comm 1]

theorem bursty_uinv_uexec {es : List BEvent} :
    ∀ {s s1 : Bursty}, s.UInv → s.uexec es = some s1 → s1.UInv := by
  induction es with
  | nil =>
    intro s s1 hi h
    simp only [Bursty.uexec, Option.some.injEq] at h
    exact h ▸ hi
  | cons e es ih =>
    intro s s1 hi h
    cases hs : s.ustep e with
    | none => simp [Bursty.uexec, hs] at h
    | some s2 =>
      simp only [Bursty.uexec, hs, Option.some_bind] at h
      exact ih (bursty_uinv_step hi hs) h

theorem bursty_uinv_urun {es : List BEvent} {s : Bursty} (h : Bursty.urun es = some s) :
    s.UInv := by
  unfold Bursty.urun at h
  cases h0 : Bursty.setup with
  | none => simp [h0] at h
  | some s0 =>
    simp only [h0, Option.some_bind] at h
    exact bursty_uinv_uexec (bursty_uinv_setup h0) h

theorem bursty_take_documented {n : Nat} (h : n ≤ 5) :
    (List.range' 1 n).map Bursty.grantOf = Bursty.documented.take n := by
  interval_cases n <;> rfl

/-- C2. Burst scenario. In every interleaving request 4 is granted only once
the first tick has fired (at 200 ms or later) and request 5 only once the
second tick has fired (at 400 ms or later). On the ideal clock the lines
printed are always a prefix of: requests 1, 2, 3 at time 0, request 4 at
200 ms, request 5 at 400 ms; and whenever every goroutine is blocked, 3
requests have been granted if no tick has fired, 4 after one tick and all 5
after two ticks. The run with exactly two ticks ends with all five granted. -/
theorem bursty_burst_scenario :
    (∀ es s, Bursty.run es = some s → ∀ p ∈ s.out,
      (p.1 = 4 → 1 ≤ s.ticks ∧ 200 ≤ p.2) ∧ (p.1 = 5 → 2 ≤ s.ticks ∧ 400 ≤ p.2)) ∧
    (∀ es s, Bursty.urun es = some s →
      s.out = Bursty.documented.take s.granted ∧
      (s.busy = false → s.granted = min 5 (burstCap + s.ticks))) ∧
    (Bursty.urun Bursty.idealSchedule = some Bursty.final ∧ Bursty.final.ticks = 2 ∧
      Bursty.final.loop = LoopPc.finished ∧ Bursty.final.out = Bursty.documented) := by
  refine ⟨?_, ?_, rfl, rfl, rfl, rfl⟩
  · intro es s h p hp
    have ht := (bursty_inv_run h).times p hp
    simp only [period, burstCap] at ht
    constructor <;> intro hk <;> rw [hk] at ht <;> omega
  · intro es s h
    have hu := bursty_uinv_urun h
    have hi := hu.inv
    refine ⟨?_, ?_⟩
    · have := hu.outEq
      rw [bursty_take_documented hi.served] at this
      exact this
    · intro hb
      have hbal := hi.balance
      have hsup := hi.supply
      have hlen := hi.served
      simp only [Bursty.granted, burstCap] at *
      by_cases hl : s.loop = LoopPc.finished
      · have hq := hi.queue
        rw [hi.fin hl, hl] at hq
        simp only [LoopPc.held, List.append_nil] at hq
        have h5 : 5 - s.out.length = 0 := by
          by_contra hne
          obtain ⟨m, hm⟩ : ∃ m, 5 - s.out.length = m + 1 := ⟨4 - s.out.length, by omega⟩
          rw [hm, List.range'_succ] at hq
          cases hq
        rw [Nat.min_eq_left (by omega)]
        omega
      · obtain ⟨h0, h1, h2⟩ := bursty_quiet hi hb hl
        have hx := hu.exact hl
        rw [h1, h2] at hx
        simp only [Bursty.tokens, List.length_nil] at h0 hx
        have hlt : s.out.length < 5 := by
          cases hp : s.loop with
          | finished => exact absurd hp hl
          | atRange =>
            exfalso
            simp only [Bursty.busy, List.any_cons, List.any_nil, Bool.or_false,
              Bool.or_eq_false_iff, ← Option.not_isSome, Bool.not_eq_true,
              Option.not_isSome_iff_eq_none] at hb
            have h3 := hb.2.2.1
            cases hrecv : s.burstyRequests.recv with
            | none => simp [Bursty.step, hp, hrecv, hi.reqClosed] at h3
            | some q => simp [Bursty.step, hp, hrecv] at h3
          | acquiring r =>
            have hq := hi.queue
            rw [hp] at hq
            simp only [LoopPc.held, List.singleton_append] at hq
            exact (range_head hq).2.1
        rw [Nat.min_eq_right (by omega)]
        omega

theorem bursty_burst_scenario_witness :
    Bursty.run Bursty.idealSchedule = some Bursty.final ∧
    Bursty.urun Bursty.idealSchedule = some Bursty.final ∧
    ((4 = 4 → 1 ≤ Bursty.final.ticks ∧ 200 ≤ 200) ∧ (4 = 5 → 2 ≤ Bursty.final.ticks ∧ 400 ≤ 200)) ∧
    (Bursty.final.out = Bursty.documented.take Bursty.final.granted ∧
      (Bursty.final.busy = false → Bursty.final.granted = min 5 (burstCap + Bursty.final.ticks))) :=
  ⟨rfl, rfl,
    bursty_burst_scenario.1 Bursty.idealSchedule Bursty.final rfl (4, 200) (by decide),
    bursty_burst_scenario.2.1 Bursty.idealSchedule Bursty.final rfl⟩

/-! ## The basic limiter -/

theorem basic_setup_eq : Basic.setup = some
    { ticks := 0, limiter := ⟨1, [], false⟩, requests := ⟨5, [1, 2, 3, 4, 5], true⟩,
      loop := LoopPc.atRange, out := [] } := by
  rfl

theorem basic_inv_setup {s : Basic} (h : Basic.setup = some s) : s.Inv := by
  rw [basic_setup_eq] at h
  cases h
  constructor <;> simp [tickerCap, LoopPc.held, List.range']

theorem basic_inv_step {s s1 : Basic} {e : LEvent} (hi : s.Inv) (h : s.step e = some s1) :
    s1.Inv := by
  obtain ⟨limCap, limLen, supply, reqClosed, ids, queue, fin, times, served⟩ := hi
  cases e with
  | tick =>
    simp only [Basic.step, Option.some.injEq] at h
    subst h
    refine ⟨?_, ?_, ?_, reqClosed, ids, queue, fin, ?_, served⟩
    · simpa [Chan.trySend_cap] using limCap
    · dsimp only
      rw [Chan.trySend_buf]
      split
      · simp only [List.length_append, List.length_singleton]; omega
      · exact limLen
    · dsimp only
      rw [Chan.trySend_buf]
      split
      · simp only [List.length_append, List.length_singleton]
        omega
      · omega
    · intro p hp
      have := times p hp
      simp only [period] at this ⊢
      omega
  | loopNext =>
    cases hl : s.loop with
    | acquiring r => simp [Basic.step, hl] at h
    | finished => simp [Basic.step, hl] at h
    | atRange =>
      rw [hl] at queue
      simp only [LoopPc.held, List.nil_append] at queue
      cases hrecv : s.requests.recv with
      | none =>
        simp only [Basic.step, hl, hrecv, reqClosed, if_true, Option.some.injEq] at h
        subst h
        refine ⟨limCap, limLen, supply, reqClosed, ids, ?_, ?_, times, served⟩
        · simpa [LoopPc.held] using queue
        · intro _; exact Chan.recv_none hrecv
      | some p =>
        obtain ⟨req, c⟩ := p
        simp only [Basic.step, hl, hrecv, Option.some.injEq] at h
        subst h
        obtain ⟨hb, _, hcl⟩ := Chan.recv_some hrecv
        refine ⟨limCap, limLen, supply, ?_, ids, ?_, ?_, times, served⟩
        · simpa [hcl] using reqClosed
        · simpa [hb, LoopPc.held] using queue
        · intro hf; cases hf
  | loopAcquire =>
    cases hl : s.loop with
    | atRange => simp [Basic.step, hl] at h
    | finished => simp [Basic.step, hl] at h
    | acquiring req =>
      cases hrecv : s.limiter.recv with
      | none => simp [Basic.step, hl, hrecv] at h
      | some p =>
        obtain ⟨t, c⟩ := p
        simp only [Basic.step, hl, hrecv, Option.some.injEq] at h
        subst h
        obtain ⟨hb, hc, _⟩ := Chan.recv_some hrecv
        rw [hl] at queue
        simp only [LoopPc.held, List.singleton_append] at queue
        obtain ⟨hreq, hn, hrest⟩ := range_head queue
        rw [hb] at limLen supply
        simp only [List.length_cons] at limLen supply
        refine ⟨?_, ?_, ?_, reqClosed, ?_, ?_, ?_, ?_, ?_⟩
        · simpa [hc] using limCap
        · dsimp only; omega
        · dsimp only
          rw [List.length_append, List.length_singleton]
          omega
        · simp [ids, hreq, List.range'_concat]
          omega
        · simpa [LoopPc.held] using hrest
        · intro hf; cases hf
        · intro p hp
          simp only [List.mem_append, List.mem_singleton] at hp
          rcases hp with hp | hp
          · exact times p hp
          · subst hp
            simp only [Basic.now, period, hreq, tickerCap] at *
            omega
        · dsimp only
          rw [List.length_append, List.length_singleton]
          omega

theorem basic_inv_exec {es : List LEvent} :
    ∀ {s s1 : Basic}, s.Inv → s.exec es = some s1 → s1.Inv := by
  induction es with
  | nil =>
    intro s s1 hi h
    simp only [Basic.exec, Option.some.injEq] at h
    exact h ▸ hi
  | cons e es ih =>
    intro s s1 hi h
    cases hs : s.step e with
    | none => simp [Basic.exec, hs] at h
    | some s2 =>
      simp only [Basic.exec, hs, Option.some_bind] at h
      exact ih (basic_inv_step hi hs) h

theorem basic_inv_run {es : List LEvent} {s : Basic} (h : Basic.run es = some s) : s.Inv := by
  unfold Basic.run at h
  cases h0 : Basic.setup with
  | none => simp [h0] at h
  | some s0 =>
    simp only [h0, Option.some_bind] at h
    exact basic_inv_exec (basic_inv_setup h0) h

theorem Basic.step_potential {s s1 : Basic} {e : LEvent} (he : e ≠ LEvent.tick)
    (h : s.step e = some s1) :
    s1.out.length + s1.limiter.buf.length = s.out.length + s.limiter.buf.length := by
  cases e with
  | tick => exact absurd rfl he
  | loopNext =>
    cases hl : s.loop with
    | acquiring r => simp [Basic.step, hl] at h
    | finished => simp [Basic.step, hl] at h
    | atRange =>
      cases hrecv : s.requests.recv with
      | none =>
        simp only [Basic.step, hl, hrecv] at h
        split at h
        · cases h; rfl
        · cases h
      | some p =>
        obtain ⟨req, c⟩ := p
        simp only [Basic.step, hl, hrecv, Option.some.injEq] at h
        subst h
        rfl
  | loopAcquire =>
    cases hl : s.loop with
    | atRange => simp [Basic.step, hl] at h
    | finished => simp [Basic.step, hl] at h
    | acquiring req =>
      cases hrecv : s.limiter.recv with
      | none => simp [Basic.step, hl, hrecv] at h
      | some p =>
        obtain ⟨t, c⟩ := p
        simp only [Basic.step, hl, hrecv, Option.some.injEq] at h
        subst h
        obtain ⟨hb, _, _⟩ := Chan.recv_some hrecv
        dsimp only
        rw [hb, List.length_append, List.length_singleton, List.length_cons]
        omega

theorem Basic.exec_potential {bs : List LEvent} :
    ∀ {s s1 : Basic}, LEvent.tick ∉ bs → s.exec bs = some s1 →
      s1.out.length + s1.limiter.buf.length = s.out.length + s.limiter.buf.length := by
  induction bs with
  | nil =>
    intro s s1 _ h
    simp only [Basic.exec, Option.some.injEq] at h
    rw [h]
  | cons e bs ih =>
    intro s s1 hn h
    simp only [List.mem_cons, not_or] at hn
    cases hs : s.step e with
    | none => simp [Basic.exec, hs] at h
    | some s2 =>
      simp only [Basic.exec, hs, Option.some_bind] at h
      rw [ih hn.2 h, Basic.step_potential (Ne.symm hn.1) hs]

theorem basic_ustep_step {s s1 : Basic} {e : LEvent} (h : s.ustep e = some s1) :
    s.step e = some s1 := by
  cases e <;> simp only [Basic.ustep] at h <;> try exact h
  split at h
  · cases h
  · exact h

theorem basic_ustep_tick {s s1 : Basic} (h : s.ustep LEvent.tick = some s1) :
    s.busy = false := by
  simp only [Basic.ustep] at h
  split at h
  · cases h
  · simpa using ‹¬ s.busy = true›

theorem basic_quiet {s : Basic} (hi : s.Inv) (hb : s.busy = false)
    (hl : s.loop ≠ LoopPc.finished) :
    s.limiter.buf = [] ∧ s.out.length < 5 := by
  simp only [Basic.busy, List.any_cons, List.any_nil, Bool.or_false, Bool.or_eq_false_iff,
    ← Option.not_isSome, Bool.not_eq_true, Option.not_isSome_iff_eq_none] at hb
  obtain ⟨h1, h2⟩ := hb
  cases hp : s.loop with
  | finished => exact absurd hp hl
  | atRange =>
    cases hrecv : s.requests.recv with
    | none => simp [Basic.step, hp, hrecv, hi.reqClosed] at h1
    | some p => simp [Basic.step, hp, hrecv] at h1
  | acquiring r =>
    have hq := hi.queue
    rw [hp] at hq
    simp only [LoopPc.held, List.singleton_append] at hq
    refine ⟨?_, (range_head hq).2.1⟩
    cases hrecv : s.limiter.recv with
    | none => exact Chan.recv_none hrecv
    | some p => simp [Basic.step, hp, hrecv] at h2

theorem basic_uinv_setup {s : Basic} (h : Basic.setup = some s) : s.UInv := by
  have hi := basic_inv_setup h
  rw [basic_setup_eq] at h
  cases h
  refine ⟨hi, ?_, ?_⟩ <;> simp

theorem basic_uinv_step {s s1 : Basic} {e : LEvent} (hu : s.UInv) (h : s.ustep e = some s1) :
    s1.UInv := by
  have hstep := basic_ustep_step h
  have hi1 := basic_inv_step hu.inv hstep
  obtain ⟨hi, hexact, hout⟩ := hu
  cases e with
  | tick =>
    have hbusy := basic_ustep_tick h
    simp only [Basic.step, Option.some.injEq] at hstep
    subst hstep
    refine ⟨hi1, ?_, hout⟩
    intro hl
    obtain ⟨h0, _⟩ := basic_quiet hi hbusy hl
    have hx := hexact hl
    have hc := hi.limCap
    simp only [Chan.trySend_buf, h0, hc, tickerCap, List.length_nil, Nat.lt_one_iff,
      if_true, List.nil_append, List.length_singleton] at hx ⊢
    omega
  | loopNext =>
    cases hl : s.loop with
    | acquiring r => simp [Basic.step, hl] at hstep
    | finished => simp [Basic.step, hl] at hstep
    | atRange =>
      have hne : s.loop ≠ LoopPc.finished := by simp [hl]
      cases hrecv : s.requests.recv with
      | none =>
        simp only [Basic.step, hl, hrecv, hi.reqClosed, if_true, Option.some.injEq] at hstep
        subst hstep
        exact ⟨hi1, fun hf => absurd rfl hf, hout⟩
      | some p =>
        obtain ⟨req, c⟩ := p
        simp only [Basic.step, hl, hrecv, Option.some.injEq] at hstep
        subst hstep
        exact ⟨hi1, fun _ => hexact hne, hout⟩
  | loopAcquire =>
    cases hl : s.loop with
    | atRange => simp [Basic.step, hl] at hstep
    | finished => simp [Basic.step, hl] at hstep
    | acquiring req =>
      have hne : s.loop ≠ LoopPc.finished := by simp [hl]
      cases hrecv : s.limiter.recv with
      | none => simp [Basic.step, hl, hrecv] at hstep
      | some p =>
        obtain ⟨t, c⟩ := p
        simp only [Basic.step, hl, hrecv, Option.some.injEq] at hstep
        subst hstep
        obtain ⟨hb, _, _⟩ := Chan.recv_some hrecv
        have hq := hi.queue
        rw [hl] at hq
        simp only [LoopPc.held, List.singleton_append] at hq
        obtain ⟨hreq, hn, _⟩ := range_head hq
        have hx := hexact hne
        have hlen := hi.limLen
        rw [hb] at hx hlen
        simp only [List.length_cons, tickerCap] at hx hlen
        have hticks : s.ticks = s.out.length + 1 := by omega
        refine ⟨hi1, ?_, ?_⟩
        · intro _
          dsimp only
          rw [List.length_append, List.length_singleton]
          omega
        · simp only [List.length_append, List.length_singleton, List.range'_concat,
            List.map_append, List.map_cons, List.map_nil, ← hout]
          simp only [Basic.serveOf, Basic.now, hreq, hticks, Nat.one_mul, Nat.add_comm 1]

theorem basic_uinv_uexec {es : List LEvent} :
    ∀ {s s1 : Basic}, s.UInv → s.uexec es = some s1 → s1.UInv := by
  induction es with
  | nil =>
    intro s s1 hi h
    simp only [Basic.uexec, Option.some.injEq] at h
    exact h ▸ hi
  | cons e es ih =>
    intro s s1 hi h
    cases hs : s.ustep e with
    | none => simp [Basic.uexec, hs] at h
    | some s2 =>
      simp only [Basic.uexec, hs, Option.some_bind] at h
      exact ih (basic_uinv_step hi hs) h

theorem basic_uinv_urun {es : List LEvent} {s : Basic} (h : Basic.urun es = some s) :
    s.UInv := by
  unfold Basic.urun at h
  cases h0 : Basic.setup with
  | none => simp [h0] at h
  | some s0 =>
    simp only [h0, Option.some_bind] at h
    exact basic_uinv_uexec (basic_uinv_setup h0) h

theorem basic_take_documented {n : Nat} (h : n ≤ 5) :
    (List.range' 1 n).map Basic.serveOf = Basic.documented.take n := by
  interval_cases n <;> rfl

theorem range_nil {n : Nat} (h : [] = List.range' (n + 1) (5 - n)) : 5 ≤ n := by
  by_contra hne
  obtain ⟨m, hm⟩ : ∃ m, 5 - n = m + 1 := ⟨4 - n, by omega⟩
  rw [hm, List.range'_succ] at h
  cases h

theorem range_split {n : Nat} (h : n ≤ 5) :
    List.range' 1 n ++ List.range' (n + 1) (5 - n) = queued := by
  interval_cases n <;> rfl

theorem range_prefix {n : Nat} (h : n ≤ 5) : List.range' 1 n <+: queued :=
  ⟨List.range' (n + 1) (5 - n), range_split h⟩

/-- C6. Basic limiter. In every interleaving the number of requests served
never exceeds the number of ticks fired, request `k` is served no earlier
than the `k`-th tick (200 * k ms), a request that has no tick to receive is
blocked, and between two ticks at most one request is served. On the ideal
clock the lines printed are always a prefix of: request `k` at 200 * k ms for
k = 1..5; whenever the loop is blocked the number of requests served is the
number of ticks fired (5 at most); the run with five ticks serves all five. -/
theorem basic_one_request_per_tick :
    (∀ es s, Basic.run es = some s →
      s.served ≤ s.ticks ∧
      (∀ p ∈ s.out, period * p.1 ≤ p.2) ∧
      (s.limiter.buf = [] → s.step LEvent.loopAcquire = none) ∧
      (∀ bs s1, LEvent.tick ∉ bs → s.exec bs = some s1 → s1.served ≤ s.served + 1)) ∧
    (∀ es s, Basic.urun es = some s →
      s.out = Basic.documented.take s.served ∧
      (s.busy = false → s.served = min 5 s.ticks)) ∧
    (Basic.urun Basic.idealSchedule = some Basic.final ∧ Basic.final.ticks = 5 ∧
      Basic.final.loop = LoopPc.finished ∧ Basic.final.out = Basic.documented) := by
  refine ⟨?_, ?_, rfl, rfl, rfl, rfl⟩
  · intro es s h
    have hi := basic_inv_run h
    have hsup := hi.supply
    have hlen := hi.limLen
    simp only [Basic.served, tickerCap] at *
    refine ⟨by omega, fun p hp => (hi.times p hp).1, ?_, ?_⟩
    · intro hnil
      cases hp : s.loop <;> simp [Basic.step, hp, Chan.recv, hnil]
    · intro bs s1 hn hx
      have := Basic.exec_potential hn hx
      omega
  · intro es s h
    have hu := basic_uinv_urun h
    have hi := hu.inv
    refine ⟨?_, ?_⟩
    · have := hu.outEq
      rw [basic_take_documented hi.served] at this
      exact this
    · intro hb
      have hsup := hi.supply
      have hlen := hi.served
      simp only [Basic.served] at *
      by_cases hl : s.loop = LoopPc.finished
      · have hq := hi.queue
        rw [hi.fin hl, hl] at hq
        simp only [LoopPc.held, List.append_nil] at hq
        have h5 := range_nil hq
        rw [Nat.min_eq_left (by omega)]
        omega
      · obtain ⟨h0, hlt⟩ := basic_quiet hi hb hl
        have hx := hu.exact hl
        rw [h0] at hx
        simp only [List.length_nil] at hx
        rw [Nat.min_eq_right (by omega)]
        omega

theorem basic_one_request_per_tick_witness :
    Basic.run Basic.idealSchedule = some Basic.final ∧
    Basic.urun Basic.idealSchedule = some Basic.final ∧
    Basic.final.served ≤ Basic.final.ticks ∧
    (Basic.final.out = Basic.documented.take Basic.final.served ∧
      (Basic.final.busy = false → Basic.final.served = min 5 Basic.final.ticks)) :=
  ⟨rfl, rfl,
    (basic_one_request_per_tick.1 Basic.idealSchedule Basic.final rfl).1,
    basic_one_request_per_tick.2.1 Basic.idealSchedule Basic.final rfl⟩

/-! ### Progress of the request loops -/

theorem recv_trySend_empty {c : Chan Nat} (v : Nat) (hb : c.buf = []) (hc : 0 < c.cap) :
    (c.trySend v).recv = some (v, { c with buf := [] }) := by
  simp [Chan.trySend, Chan.recv, hb, hc]

theorem basic_exec_append (as bs : List LEvent) : ∀ s : Basic,
    s.exec (as ++ bs) = (s.exec as).bind (fun s1 => s1.exec bs) := by
  induction as with
  | nil => intro s; simp [Basic.exec]
  | cons e as ih =>
    intro s
    simp only [List.cons_append, Basic.exec]
    cases s.step e with
    | none => rfl
    | some s2 => simp [ih]

theorem basic_advance {s : Basic} (hi : s.Inv) (hl : s.loop ≠ LoopPc.finished) :
    ∃ fs s1, s.exec fs = some s1 ∧ (s1.loop = LoopPc.finished ∨ s1.todo < s.todo) := by
  cases hp : s.loop with
  | finished => exact absurd hp hl
  | atRange =>
    cases hrecv : s.requests.recv with
    | none =>
      refine ⟨[LEvent.loopNext], { s with loop := LoopPc.finished }, ?_, Or.inl rfl⟩
      simp [Basic.exec, Basic.step, hp, hrecv, hi.reqClosed]
    | some p =>
      obtain ⟨req, c⟩ := p
      refine ⟨[LEvent.loopNext], { s with requests := c, loop := LoopPc.acquiring req }, ?_,
        Or.inr ?_⟩
      · simp [Basic.exec, Basic.step, hp, hrecv]
      · simp [Basic.todo, hp]
  | acquiring r =>
    have hq := hi.queue
    rw [hp] at hq
    simp only [LoopPc.held, List.singleton_append] at hq
    have hn := (range_head hq).2.1
    cases hrecv : s.limiter.recv with
    | some p =>
      obtain ⟨t, c⟩ := p
      refine ⟨[LEvent.loopAcquire],
        { s with limiter := c, loop := LoopPc.atRange, out := s.out ++ [(r, s.now)] }, ?_,
        Or.inr ?_⟩
      · simp [Basic.exec, Basic.step, hp, hrecv]
      · simp only [Basic.todo, hp, List.length_append, List.length_singleton]
        omega
    | none =>
      have hb := Chan.recv_none hrecv
      have hc : 0 < s.limiter.cap := by rw [hi.limCap]; decide
      refine ⟨[LEvent.tick, LEvent.loopAcquire],
        { s with ticks := s.ticks + 1, limiter := { s.limiter with buf := [] },
                 loop := LoopPc.atRange, out := s.out ++ [(r, period * (s.ticks + 1))] }, ?_,
        Or.inr ?_⟩
      · simp [Basic.exec, Basic.step, hp, recv_trySend_empty _ hb hc, Basic.now]
      · simp only [Basic.todo, hp, List.length_append, List.length_singleton]
        omega

theorem basic_finish : ∀ (m : Nat) (s : Basic), s.Inv → s.todo ≤ m →
    ∃ fs s1, s.exec fs = some s1 ∧ s1.loop = LoopPc.finished := by
  intro m
  induction m with
  | zero =>
    intro s hi hm
    by_cases hl : s.loop = LoopPc.finished
    · exact ⟨[], s, rfl, hl⟩
    · obtain ⟨fs, s1, hx, hf | hlt⟩ := basic_advance hi hl
      · exact ⟨fs, s1, hx, hf⟩
      · omega
  | succ m ih =>
    intro s hi hm
    by_cases hl : s.loop = LoopPc.finished
    · exact ⟨[], s, rfl, hl⟩
    · obtain ⟨fs, s1, hx, hf | hlt⟩ := basic_advance hi hl
      · exact ⟨fs, s1, hx, hf⟩
      · obtain ⟨gs, s2, hy, hf⟩ := ih s1 (basic_inv_exec hi hx) (by omega)
        refine ⟨fs ++ gs, s2, ?_, hf⟩
        rw [basic_exec_append, hx]
        exact hy

theorem bursty_exec_append (as bs : List BEvent) : ∀ s : Bursty,
    s.exec (as ++ bs) = (s.exec as).bind (fun s1 => s1.exec bs) := by
  induction as with
  | nil => intro s; simp [Bursty.exec]
  | cons e as ih =>
    intro s
    simp only [List.cons_append, Bursty.exec]
    cases s.step e with
    | none => rfl
    | some s2 => simp [ih]

theorem bursty_refill {s : Bursty} (hi : s.Inv) :
    ∃ fs s1, s.exec fs = some s1 ∧ s1.loop = s.loop ∧ s1.out = s.out ∧
      s1.burstyLimiter.buf ≠ [] := by
  by_cases hb : s.burstyLimiter.buf = []
  · have hroom : s.burstyLimiter.buf.length < s.burstyLimiter.cap := by
      rw [hb, hi.limCap]; decide
    cases hr : s.repl with
    | sending t =>
      refine ⟨[BEvent.replSend],
        { s with burstyLimiter := { s.burstyLimiter with buf := s.burstyLimiter.buf ++ [t] },
                 repl := ReplPc.atRange, credits := s.credits + 1 }, ?_, rfl, rfl, ?_⟩
      · simp [Bursty.exec, Bursty.step, hr, Chan.send, hroom]
      · simp
    | atRange =>
      cases hrecv : s.tickC.recv with
      | some p =>
        obtain ⟨t, c⟩ := p
        refine ⟨[BEvent.replRecv, BEvent.replSend],
          { s with tickC := c,
                   burstyLimiter := { s.burstyLimiter with buf := s.burstyLimiter.buf ++ [t] },
                   repl := ReplPc.atRange, credits := s.credits + 1 }, ?_, rfl, rfl, ?_⟩
        · simp [Bursty.exec, Bursty.step, hr, hrecv, Chan.send, hroom]
        · simp
      | none =>
        have hbt := Chan.recv_none hrecv
        have hc : 0 < s.tickC.cap := by rw [hi.tickCap]; decide
        refine ⟨[BEvent.tick, BEvent.replRecv, BEvent.replSend],
          { s with ticks := s.ticks + 1, tickC := { s.tickC with buf := [] },
                   burstyLimiter :=
                     { s.burstyLimiter with
                       buf := s.burstyLimiter.buf ++ [period * (s.ticks + 1)] },
                   repl := ReplPc.atRange, credits := s.credits + 1 }, ?_, rfl, rfl, ?_⟩
        · simp [Bursty.exec, Bursty.step, hr, recv_trySend_empty _ hbt hc, Chan.send, hroom]
        · simp
  · exact ⟨[], s, rfl, rfl, rfl, hb⟩

theorem bursty_advance {s : Bursty} (hi : s.Inv) (hl : s.loop ≠ LoopPc.finished) :
    ∃ fs s1, s.exec fs = some s1 ∧ (s1.loop = LoopPc.finished ∨ s1.todo < s.todo) := by
  cases hp : s.loop with
  | finished => exact absurd hp hl
  | atRange =>
    cases hrecv : s.burstyRequests.recv with
    | none =>
      refine ⟨[BEvent.loopNext], { s with loop := LoopPc.finished }, ?_, Or.inl rfl⟩
      simp [Bursty.exec, Bursty.step, hp, hrecv, hi.reqClosed]
    | some p =>
      obtain ⟨req, c⟩ := p
      refine ⟨[BEvent.loopNext], { s with burstyRequests := c, loop := LoopPc.acquiring req },
        ?_, Or.inr ?_⟩
      · simp [Bursty.exec, Bursty.step, hp, hrecv]
      · simp [Bursty.todo, hp]
  | acquiring r =>
    have hq := hi.queue
    rw [hp] at hq
    simp only [LoopPc.held, List.singleton_append] at hq
    have hn := (range_head hq).2.1
    obtain ⟨fs, s1, hx, hl1, ho1, hne⟩ := bursty_refill hi
    rw [hp] at hl1
    cases hrecv : s1.burstyLimiter.recv with
    | none => exact absurd (Chan.recv_none hrecv) hne
    | some p =>
      obtain ⟨t, c⟩ := p
      refine ⟨fs ++ [BEvent.loopAcquire],
        { s1 with burstyLimiter := c, loop := LoopPc.atRange, out := s1.out ++ [(r, s1.now)] },
        ?_, Or.inr ?_⟩
      · rw [bursty_exec_append, hx]
        simp [Bursty.exec, Bursty.step, hl1, hrecv]
      · simp only [Bursty.todo, hp, ho1, List.length_append, List.length_singleton]
        omega

theorem bursty_finish : ∀ (m : Nat) (s : Bursty), s.Inv → s.todo ≤ m →
    ∃ fs s1, s.exec fs = some s1 ∧ s1.loop = LoopPc.finished := by
  intro m
  induction m with
  | zero =>
    intro s hi hm
    by_cases hl : s.loop = LoopPc.finished
    · exact ⟨[], s, rfl, hl⟩
    · obtain ⟨fs, s1, hx, hf | hlt⟩ := bursty_advance hi hl
      · exact ⟨fs, s1, hx, hf⟩
      · omega
  | succ m ih =>
    intro s hi hm
    by_cases hl : s.loop = LoopPc.finished
    · exact ⟨[], s, rfl, hl⟩
    · obtain ⟨fs, s1, hx, hf | hlt⟩ := bursty_advance hi hl
      · exact ⟨fs, s1, hx, hf⟩
      · obtain ⟨gs, s2, hy, hf⟩ := ih s1 (bursty_inv_exec hi hx) (by omega)
        refine ⟨fs ++ gs, s2, ?_, hf⟩
        rw [bursty_exec_append, hx]
        exact hy

/-- C7. FIFO grants. In every interleaving of the basic loop and of the
bursty loop the requests served, the request in hand and the requests still
queued are together exactly 1, 2, 3, 4, 5 in this order, so the ids served
are a prefix of 1, 2, 3, 4, 5: none is served before an earlier one, none
twice. When the loop has finished the ids served are exactly 1, 2, 3, 4, 5.
Every queued request is served: from every reachable state of either loop
some schedule leads to the end of the loop, with ids 1, 2, 3, 4, 5 served. -/
theorem fifo_grants :
    (∀ es s, Basic.run es = some s →
      s.out.map Prod.fst ++ (s.loop.held ++ s.requests.buf) = queued ∧
      s.out.map Prod.fst <+: queued ∧
      (s.loop = LoopPc.finished → s.out.map Prod.fst = queued) ∧
      ∃ fs s1, s.exec fs = some s1 ∧ s1.loop = LoopPc.finished ∧
        s1.out.map Prod.fst = queued) ∧
    (∀ es s, Bursty.run es = some s →
      s.out.map Prod.fst ++ (s.loop.held ++ s.burstyRequests.buf) = queued ∧
      s.out.map Prod.fst <+: queued ∧
      (s.loop = LoopPc.finished → s.out.map Prod.fst = queued) ∧
      ∃ fs s1, s.exec fs = some s1 ∧ s1.loop = LoopPc.finished ∧
        s1.out.map Prod.fst = queued) ∧
    (Basic.run Basic.idealSchedule = some Basic.final ∧
      Basic.final.loop = LoopPc.finished ∧ Basic.final.out.map Prod.fst = queued) ∧
    (Bursty.run Bursty.idealSchedule = some Bursty.final ∧
      Bursty.final.loop = LoopPc.finished ∧ Bursty.final.out.map Prod.fst = queued) := by
  have basicAll : ∀ s : Basic, s.Inv →
      s.out.map Prod.fst ++ (s.loop.held ++ s.requests.buf) = queued := by
    intro s hi
    rw [hi.ids, hi.queue]
    exact range_split hi.served
  have basicFin : ∀ s : Basic, s.Inv → s.loop = LoopPc.finished →
      s.out.map Prod.fst = queued := by
    intro s hi hl
    have hall := basicAll s hi
    rw [hi.fin hl, hl] at hall
    simpa [LoopPc.held] using hall
  have burstyAll : ∀ s : Bursty, s.Inv →
      s.out.map Prod.fst ++ (s.loop.held ++ s.burstyRequests.buf) = queued := by
    intro s hi
    rw [hi.ids, hi.queue]
    exact range_split hi.served
  have burstyFin : ∀ s : Bursty, s.Inv → s.loop = LoopPc.finished →
      s.out.map Prod.fst = queued := by
    intro s hi hl
    have hall := burstyAll s hi
    rw [hi.fin hl, hl] at hall
    simpa [LoopPc.held] using hall
  refine ⟨?_, ?_, ⟨rfl, rfl, rfl⟩, ⟨rfl, rfl, rfl⟩⟩
  · intro es s h
    have hi := basic_inv_run h
    refine ⟨basicAll s hi, ?_, basicFin s hi, ?_⟩
    · rw [hi.ids]
      exact range_prefix hi.served
    · obtain ⟨fs, s1, hx, hf⟩ := basic_finish s.todo s hi (Nat.le_refl _)
      exact ⟨fs, s1, hx, hf, basicFin s1 (basic_inv_exec hi hx) hf⟩
  · intro es s h
    have hi := bursty_inv_run h
    refine ⟨burstyAll s hi, ?_, burstyFin s hi, ?_⟩
    · rw [hi.ids]
      exact range_prefix hi.served
    · obtain ⟨fs, s1, hx, hf⟩ := bursty_finish s.todo s hi (Nat.le_refl _)
      exact ⟨fs, s1, hx, hf, burstyFin s1 (bursty_inv_exec hi hx) hf⟩

theorem fifo_grants_witness :
    Basic.run Basic.idealSchedule = some Basic.final ∧
    Bursty.run (Bursty.idleSchedule ++ Bursty.burstSchedule) = some Bursty.burst ∧
    Basic.final.out.map Prod.fst = queued ∧
    Bursty.burst.out.map Prod.fst ++ (Bursty.burst.loop.held ++ Bursty.burst.burstyRequests.buf)
      = queued :=
  ⟨rfl, rfl,
    (fifo_grants.1 Basic.idealSchedule Basic.final rfl).2.2.1 rfl,
    (fifo_grants.2.1 (Bursty.idleSchedule ++ Bursty.burstSchedule) Bursty.burst rfl).1⟩

end RateLimiting

/-! ## The ticker -/

namespace Tickers

open Go

theorem step_elapse {s s1 : State} {d : Nat} (h : step s (Event.elapse d) = some s1) :
    (s.stopped = true ∨ s.now + d ≤ s.nextTick) ∧
    (s.main ≠ MainPc.sleeping ∨ s.now + d ≤ sleepFor) ∧
    s1 = { s with now := s.now + d } := by
  simp only [step] at h
  split at h
  · rename_i hc
    cases h
    exact ⟨hc.1, hc.2, rfl⟩
  · cases h

theorem step_fire {s s1 : State} (h : step s Event.fire = some s1) :
    s.stopped = false ∧ s.now = s.nextTick ∧
    s1 = { s with tickerC := s.tickerC.trySend s.now,
                  nextTick := s.nextTick + tickPeriod, fired := s.fired + 1 } := by
  simp only [step] at h
  split at h
  · rename_i hc
    cases h
    exact ⟨hc.1, hc.2, rfl⟩
  · cases h

theorem step_wake {s s1 : State} (h : step s Event.wake = some s1) :
    s.main = MainPc.sleeping ∧ s.now = sleepFor ∧ s1 = { s with main := MainPc.atStop } := by
  simp only [step] at h
  split at h
  · rename_i hc
    cases h
    exact ⟨hc.1, hc.2, rfl⟩
  · cases h

theorem step_stop {s s1 : State} (h : step s Event.stop = some s1) :
    s.main = MainPc.atStop ∧ s1 = { s with stopped := true, main := MainPc.atDone } := by
  simp only [step] at h
  split at h
  · rename_i hc
    cases h
    exact ⟨hc, rfl⟩
  · cases h

theorem step_handleTick {s s1 : State} (h : step s Event.handleTick = some s1) :
    ∃ t c, s.handler = HandlerPc.atSelect ∧ s.tickerC.buf = t :: c.buf ∧ c.cap = s.tickerC.cap ∧
      s1 = { s with tickerC := c, out := s.out ++ [Output.tickAt t] } := by
  cases hh : s.handler with
  | returned => simp [step, hh] at h
  | atSelect =>
    cases hrecv : s.tickerC.recv with
    | none => simp [step, hh, hrecv] at h
    | some p =>
      obtain ⟨t, c⟩ := p
      simp only [step, hh, hrecv, Option.some.injEq] at h
      obtain ⟨hb, hc, _⟩ := Chan.recv_some hrecv
      exact ⟨t, c, rfl, hb, hc, h.symm⟩

theorem step_handleDone {s s1 : State} (h : step s Event.handleDone = some s1) :
    s.main = MainPc.atDone ∧ s.handler = HandlerPc.atSelect ∧
    s1 = { s with handler := HandlerPc.returned, main := MainPc.atPrint } := by
  simp only [step] at h
  split at h
  · rename_i hc
    cases h
    exact ⟨hc.1, hc.2, rfl⟩
  · cases h

theorem step_printStopped {s s1 : State} (h : step s Event.printStopped = some s1) :
    s.main = MainPc.atPrint ∧
    s1 = { s with out := s.out ++ [Output.tickerStopped], main := MainPc.exited } := by
  simp only [step] at h
  split at h
  · rename_i hc
    cases h
    exact ⟨hc, rfl⟩
  · cases h

theorem tickLines_append (a b : List Output) : tickLines (a ++ b) = tickLines a ++ tickLines b := by
  simp [tickLines]

theorem ticker_inv_init : Inv init := by
  constructor <;> simp [init, tickLines, mainOut]

theorem ticker_inv_step {s s1 : State} {e : Event} (hi : Inv s) (h : step s e = some s1) : Inv s1 := by
  obtain ⟨hstop, hhand, hout⟩ := hi
  cases e with
  | elapse d =>
    obtain ⟨_, _, rfl⟩ := step_elapse h
    exact ⟨hstop, hhand, hout⟩
  | fire =>
    obtain ⟨_, _, rfl⟩ := step_fire h
    exact ⟨hstop, hhand, hout⟩
  | wake =>
    obtain ⟨hm, _, rfl⟩ := step_wake h
    rw [hm] at hstop hhand hout
    refine ⟨?_, ?_, ?_⟩
    · simpa using hstop
    · simpa using hhand
    · simpa [mainOut] using hout
  | stop =>
    obtain ⟨hm, rfl⟩ := step_stop h
    rw [hm] at hhand hout
    refine ⟨?_, ?_, ?_⟩
    · simp
    · simpa using hhand
    · simpa [mainOut] using hout
  | handleTick =>
    obtain ⟨t, c, hh, _, _, rfl⟩ := step_handleTick h
    have hne : s.main ≠ MainPc.exited := by
      intro hm
      have := hhand.mpr (Or.inr hm)
      rw [hh] at this
      cases this
    have hmo : mainOut s.main = [] := by simp [mainOut, hne]
    rw [hmo, List.append_nil] at hout
    refine ⟨hstop, hhand, ?_⟩
    dsimp only
    rw [hmo, List.append_nil, tickLines_append, ← hout]
    simp [tickLines]
  | handleDone =>
    obtain ⟨hm, _, rfl⟩ := step_handleDone h
    rw [hm] at hstop hout
    refine ⟨?_, ?_, ?_⟩
    · simpa using hstop
    · simp
    · simpa [mainOut] using hout
  | printStopped =>
    obtain ⟨hm, rfl⟩ := step_printStopped h
    rw [hm] at hstop hhand hout
    have hmo : mainOut MainPc.atPrint = [] := by simp [mainOut]
    rw [hmo, List.append_nil] at hout
    refine ⟨?_, ?_, ?_⟩
    · simpa using hstop
    · simpa using hhand
    · dsimp only
      rw [tickLines_append, ← hout]
      simp [tickLines, mainOut]

theorem ticker_inv_exec {es : List Event} : ∀ {s s1 : State}, Inv s → exec s es = some s1 → Inv s1 := by
  induction es with
  | nil =>
    intro s s1 hi h
    simp only [exec, Option.some.injEq] at h
    exact h ▸ hi
  | cons e es ih =>
    intro s s1 hi h
    cases hs : step s e with
    | none => simp [exec, hs] at h
    | some s2 =>
      simp only [exec, hs, Option.some_bind] at h
      exact ih (ticker_inv_step hi hs) h

theorem halted_step {s s1 : State} {e : Event} (hh : s.handler = HandlerPc.returned)
    (hs : s.stopped = true) (h : step s e = some s1) :
    s1.handler = HandlerPc.returned ∧ s1.stopped = true ∧ handled s1 = handled s ∧
    s1.fired = s.fired ∧ s1.tickerC = s.tickerC := by
  cases e with
  | elapse d =>
    obtain ⟨_, _, rfl⟩ := step_elapse h
    exact ⟨hh, hs, rfl, rfl, rfl⟩
  | fire =>
    obtain ⟨hf, _, _⟩ := step_fire h
    rw [hs] at hf
    cases hf
  | wake =>
    obtain ⟨_, _, rfl⟩ := step_wake h
    exact ⟨hh, hs, rfl, rfl, rfl⟩
  | stop =>
    obtain ⟨_, rfl⟩ := step_stop h
    exact ⟨hh, rfl, rfl, rfl, rfl⟩
  | handleTick =>
    obtain ⟨t, c, hsel, _, _, _⟩ := step_handleTick h
    rw [hh] at hsel
    cases hsel
  | handleDone =>
    obtain ⟨_, hsel, _⟩ := step_handleDone h
    rw [hh] at hsel
    cases hsel
  | printStopped =>
    obtain ⟨_, rfl⟩ := step_printStopped h
    refine ⟨hh, hs, ?_, rfl, rfl⟩
    simp [handled]

theorem halted_exec {es : List Event} : ∀ {s s1 : State}, s.handler = HandlerPc.returned →
    s.stopped = true → exec s es = some s1 →
    s1.handler = HandlerPc.returned ∧ s1.stopped = true ∧ handled s1 = handled s ∧
    s1.fired = s.fired ∧ s1.tickerC = s.tickerC := by
  induction es with
  | nil =>
    intro s s1 hh hs h
    simp only [exec, Option.some.injEq] at h
    subst h
    exact ⟨hh, hs, rfl, rfl, rfl⟩
  | cons e es ih =>
    intro s s1 hh hs h
    cases hstep : step s e with
    | none => simp [exec, hstep] at h
    | some s2 =>
      simp only [exec, hstep, Option.some_bind] at h
      obtain ⟨a, b, c, d, f⟩ := halted_step hh hs hstep
      obtain ⟨a1, b1, c1, d1, f1⟩ := ih a b h
      exact ⟨a1, b1, c1.trans c, d1.trans d, f1.trans f⟩

/-- C9. Stop is permanent. Take any interleaving up to a state in which the
done signal is delivered to the handler, and any schedule after it, however
much time it lets pass. Then `ticker.Stop()` had been called, the handler has
returned and stays returned, the ticker stays stopped and fires no more, the
number of ticks handled is unchanged, and neither handling a tick nor firing
the ticker is enabled any more. -/
theorem stop_is_permanent (es1 : List Event) (s0 s : State) (es2 : List Event) (s1 : State)
    (h1 : exec init es1 = some s0) (hd : step s0 Event.handleDone = some s)
    (h2 : exec s es2 = some s1) :
    s.stopped = true ∧ s.handler = HandlerPc.returned ∧
    s1.stopped = true ∧ s1.handler = HandlerPc.returned ∧
    handled s1 = handled s ∧ s1.fired = s.fired ∧
    step s1 Event.handleTick = none ∧ step s1 Event.fire = none := by
  have hi0 := ticker_inv_exec ticker_inv_init h1
  obtain ⟨hm, _, hs⟩ := step_handleDone hd
  have hstop : s.stopped = true := by
    rw [hs]
    exact hi0.stopFlag.mpr (Or.inl hm)
  have hret : s.handler = HandlerPc.returned := by rw [hs]
  obtain ⟨a, b, c, d, _⟩ := halted_exec hret hstop h2
  refine ⟨hstop, hret, b, a, c, d, ?_, ?_⟩
  · simp [step, a]
  · simp [step, b]

theorem stop_is_permanent_witness :
    exec init stopSchedule = some stopping ∧
    step stopping Event.handleDone = some halted ∧
    exec halted afterSchedule = some muchLater ∧
    (halted.stopped = true ∧ halted.handler = HandlerPc.returned ∧
      muchLater.stopped = true ∧ muchLater.handler = HandlerPc.returned ∧
      handled muchLater = handled halted ∧ muchLater.fired = halted.fired ∧
      step muchLater Event.handleTick = none ∧ step muchLater Event.fire = none) :=
  ⟨rfl, rfl, rfl, stop_is_permanent stopSchedule stopping halted afterSchedule muchLater rfl rfl rfl⟩

/-! ### The ticker on the ideal clock -/

theorem ticker_ustep_step {s s1 : State} {e : Event} (h : ustep s e = some s1) :
    step s e = some s1 := by
  cases e <;> simp only [ustep] at h <;> try exact h
  split at h
  · exact h
  · cases h

theorem ustep_elapse {s s1 : State} {d : Nat} (h : ustep s (Event.elapse d) = some s1) :
    d = 0 ∨ busy s = false := by
  simp only [ustep] at h
  split at h
  · assumption
  · cases h

theorem not_busy {s : State} (hb : busy s = false) :
    step s Event.fire = none ∧ step s Event.wake = none ∧ step s Event.stop = none ∧
    step s Event.handleTick = none ∧ step s Event.handleDone = none ∧
    step s Event.printStopped = none := by
  have key : ∀ o : Option State, o.isSome = false → o = none := by
    intro o ho
    cases o with
    | none => rfl
    | some x => cases ho
  simp only [busy, List.any_cons, List.any_nil, Bool.or_false, Bool.or_eq_false_iff] at hb
  obtain ⟨h1, h2, h3, h4, h5, h6⟩ := hb
  exact ⟨key _ h1, key _ h2, key _ h3, key _ h4, key _ h5, key _ h6⟩

theorem ticker_uinv_init : UInv init := by
  refine ⟨ticker_inv_init, ?_, ?_, ?_, ?_, ?_, ?_, ?_, ?_, ?_⟩ <;>
    simp [init, Chan.make, tickerCap, tickPeriod, sleepFor, mainOut]

theorem mainPc_cases {s : State} (hi : Inv s) (hs : s.stopped = false) :
    s.main = MainPc.sleeping ∨ s.main = MainPc.atStop := by
  have h := hi.stopFlag
  rw [hs] at h
  cases hm : s.main <;> simp [hm] at h ⊢

theorem ticker_uinv_step {s s1 : State} {e : Event} (hu : UInv s) (h : ustep s e = some s1) :
    UInv s1 := by
  have hstep := ticker_ustep_step h
  have hi1 := ticker_inv_step hu.inv hstep
  obtain ⟨hi, hcap, hnext, hpast, hahead, hasleep, hawake, hatOnce, hpend, hout⟩ := hu
  cases e with
  | elapse d =>
    obtain ⟨hc1, hc2, rfl⟩ := step_elapse hstep
    have hd := ustep_elapse h
    refine ⟨hi1, hcap, hnext, ?_, ?_, ?_, hawake, ?_, ?_, hout⟩
    · dsimp only; omega
    · intro hs
      dsimp only at hs ⊢
      rcases hc1 with hc1 | hc1
      · rw [hs] at hc1; cases hc1
      · exact hc1
    · intro hm
      dsimp only at hm ⊢
      rcases hc2 with hc2 | hc2
      · exact absurd hm hc2
      · exact hc2
    · intro hm
      dsimp only at hm ⊢
      rcases hd with hd | hd
      · rw [hd]; exact hatOnce hm
      · have := (not_busy hd).2.2.1
        simp [step, hm] at this
    · dsimp only
      rcases hd with hd | hd
      · rw [hd]; exact hpend
      · left
        have hht := (not_busy hd).2.2.2.1
        cases hh : s.handler with
        | returned =>
          have hm := hi.handlerPc.mp hh
          have hne : s.main ≠ MainPc.sleeping := by
            rcases hm with hm | hm <;> simp [hm]
          exact (hawake hne).2
        | atSelect =>
          cases hrecv : s.tickerC.recv with
          | none => exact Chan.recv_none hrecv
          | some p => simp [step, hh, hrecv] at hht
  | fire =>
    obtain ⟨hs, hnow, rfl⟩ := step_fire hstep
    have hbuf : s.tickerC.buf = [] := by
      rcases hpend with hp | ⟨_, hp, _⟩
      · exact hp
      · simp only [tickPeriod] at *
        omega
    have hm : s.main = MainPc.sleeping := by
      rcases mainPc_cases hi hs with hm | hm
      · exact hm
      · have h3 := (hawake (by simp [hm])).1
        have h16 := hatOnce hm
        simp only [tickPeriod, sleepFor] at *
        omega
    have hbuf1 : (s.tickerC.trySend s.now).buf = [s.now] := by
      rw [Chan.trySend_buf, hbuf, hcap]
      simp [tickerCap]
    refine ⟨hi1, ?_, ?_, ?_, ?_, hasleep, ?_, ?_, ?_, ?_⟩
    · simpa [Chan.trySend_cap] using hcap
    · dsimp only
      simp only [tickPeriod] at *
      omega
    · dsimp only
      simp only [tickPeriod] at *
      omega
    · intro _
      dsimp only
      omega
    · intro hne
      exact absurd hm hne
    · intro hm1
      dsimp only at hm1
      rw [hm] at hm1
      cases hm1
    · right
      dsimp only
      rw [hbuf1]
      simp only [tickPeriod] at *
      refine ⟨?_, ?_, ?_⟩
      · congr 1; omega
      · omega
      · omega
    · dsimp only
      rw [hbuf1]
      rw [hbuf] at hout
      simpa using hout
  | wake =>
    obtain ⟨hm, hnow, rfl⟩ := step_wake hstep
    have hs : s.stopped = false := by
      cases hst : s.stopped with
      | false => rfl
      | true =>
        have := hi.stopFlag.mp hst
        simp [hm] at this
    have hah := hahead hs
    have h3 : s.fired = 3 := by
      simp only [tickPeriod, sleepFor] at *
      omega
    have hbuf : s.tickerC.buf = [] := by
      rcases hpend with hp | ⟨_, hp, _⟩
      · exact hp
      · simp only [tickPeriod, sleepFor] at *
        omega
    refine ⟨hi1, hcap, hnext, hpast, hahead, ?_, ?_, ?_, hpend, ?_⟩
    · intro hm1; cases hm1
    · intro _; exact ⟨h3, hbuf⟩
    · intro _; exact hnow
    · dsimp only
      rw [hm] at hout
      simpa [mainOut] using hout
  | stop =>
    obtain ⟨hm, rfl⟩ := step_stop hstep
    have hne : s.main ≠ MainPc.sleeping := by simp [hm]
    refine ⟨hi1, hcap, hnext, hpast, ?_, ?_, ?_, ?_, hpend, ?_⟩
    · intro hs; cases hs
    · intro hm1; cases hm1
    · intro _; exact hawake hne
    · intro hm1; cases hm1
    · dsimp only
      rw [hm] at hout
      simpa [mainOut] using hout
  | handleTick =>
    obtain ⟨t, c, hh, hb, hc, rfl⟩ := step_handleTick hstep
    have hm : s.main = MainPc.sleeping := by
      by_contra hne
      have := (hawake hne).2
      rw [hb] at this
      cases this
    rcases hpend with hp | ⟨hp, hnow, hf⟩
    · rw [hb] at hp; cases hp
    · rw [hb] at hp
      injection hp with ht hcb
      refine ⟨hi1, ?_, hnext, hpast, hahead, hasleep, ?_, hatOnce, ?_, ?_⟩
      · dsimp only; rw [hc]; exact hcap
      · intro hne; exact absurd hm hne
      · left; exact hcb
      · dsimp only
        rw [hb, hm] at hout
        rw [hcb, hm, hout, ht]
        obtain ⟨k, hk⟩ : ∃ k, s.fired = k + 1 := ⟨s.fired - 1, by omega⟩
        simp [hk, hcb, mainOut, List.range'_concat, tickLine, Nat.add_comm 1]
  | handleDone =>
    obtain ⟨hm, _, rfl⟩ := step_handleDone hstep
    have hne : s.main ≠ MainPc.sleeping := by simp [hm]
    refine ⟨hi1, hcap, hnext, hpast, hahead, ?_, ?_, ?_, hpend, ?_⟩
    · intro hm1; cases hm1
    · intro _; exact hawake hne
    · intro hm1; cases hm1
    · dsimp only
      rw [hm] at hout
      simpa [mainOut] using hout
  | printStopped =>
    obtain ⟨hm, rfl⟩ := step_printStopped hstep
    have hne : s.main ≠ MainPc.sleeping := by simp [hm]
    refine ⟨hi1, hcap, hnext, hpast, hahead, ?_, ?_, ?_, hpend, ?_⟩
    · intro hm1; cases hm1
    · intro _; exact hawake hne
    · intro hm1; cases hm1
    · dsimp only
      rw [hm] at hout
      rw [hout]
      simp [mainOut]

theorem ticker_uinv_uexec {es : List Event} :
    ∀ {s s1 : State}, UInv s → uexec s es = some s1 → UInv s1 := by
  induction es with
  | nil =>
    intro s s1 hi h
    simp only [uexec, Option.some.injEq] at h
    exact h ▸ hi
  | cons e es ih =>
    intro s s1 hi h
    cases hs : ustep s e with
    | none => simp [uexec, hs] at h
    | some s2 =>
      simp only [uexec, hs, Option.some_bind] at h
      exact ih (ticker_uinv_step hi hs) h

theorem tickLines_map (n : Nat) :
    tickLines ((List.range' 1 n).map tickLine) = (List.range' 1 n).map tickLine := by
  simp only [tickLines, tickLine, List.filter_eq_self, List.mem_map]
  rintro a ⟨x, _, rfl⟩
  simp

theorem tickLines_mainOut (m : MainPc) : tickLines (mainOut m) = [] := by
  unfold mainOut
  split <;> simp [tickLines]

theorem prefix_documented {n : Nat} (h : n ≤ 3) :
    (List.range' 1 n).map tickLine <+: documented := by
  interval_cases n
  · exact ⟨documented, rfl⟩
  · exact ⟨[Output.tickAt 1000, Output.tickAt 1500, Output.tickerStopped], rfl⟩
  · exact ⟨[Output.tickAt 1500, Output.tickerStopped], rfl⟩
  · exact ⟨[Output.tickerStopped], rfl⟩

/-- C8. Ticker demo tick count. On the ideal clock, with the ticker of period
500 ms stopped after 1600 ms, every interleaving prints a prefix of
`Tick at 500`, `Tick at 1000`, `Tick at 1500`, `Ticker stopped`; at most
floor(1600 / 500) = 3 ticks are handled, and once `main` has printed
`Ticker stopped` the output is exactly these four lines: the handler ran
exactly 3 times, before the single `Ticker stopped`. The ideal schedule
reaches that state. -/
theorem ticker_ticks_three_times :
    (∀ es s, uexec init es = some s →
      s.out <+: documented ∧ handled s ≤ sleepFor / tickPeriod ∧
      (s.main = MainPc.exited →
        s.out = documented ∧ handled s = sleepFor / tickPeriod ∧ s.fired = 3)) ∧
    (uexec init idealSchedule = some final ∧ final.main = MainPc.exited ∧
      final.out = documented) ∧
    sleepFor / tickPeriod = 3 := by
  refine ⟨?_, ⟨rfl, rfl, rfl⟩, rfl⟩
  intro es s h
  have hu := ticker_uinv_uexec ticker_uinv_init h
  have hfired : s.fired ≤ 3 := by
    by_cases hm : s.main = MainPc.sleeping
    · have h1 := hu.asleep hm
      have h2 := hu.past
      simp only [tickPeriod, sleepFor] at *
      omega
    · rw [(hu.awake hm).1]
  have hhandled : handled s = s.fired - s.tickerC.buf.length := by
    have ho := hu.outEq
    have : handled s = (tickLines s.out).length := rfl
    rw [this, ho, tickLines_append, tickLines_map, tickLines_mainOut]
    simp
  have h3 : sleepFor / tickPeriod = 3 := rfl
  refine ⟨?_, ?_, ?_⟩
  · by_cases hm : s.main = MainPc.exited
    · have hne : s.main ≠ MainPc.sleeping := by simp [hm]
      obtain ⟨hf, hb⟩ := hu.awake hne
      have ho := hu.outEq
      rw [hf, hb, hm] at ho
      rw [ho]
      exact ⟨[], rfl⟩
    · have ho := hu.outEq
      have hmo : mainOut s.main = [] := by simp [mainOut, hm]
      rw [hmo, List.append_nil] at ho
      rw [ho]
      exact prefix_documented (by omega)
  · rw [h3, hhandled]
    omega
  · intro hm
    have hne : s.main ≠ MainPc.sleeping := by simp [hm]
    obtain ⟨hf, hb⟩ := hu.awake hne
    have ho := hu.outEq
    rw [hf, hb, hm] at ho
    refine ⟨ho, ?_, hf⟩
    rw [h3, hhandled, hf, hb]
    rfl

theorem ticker_ticks_three_times_witness :
    uexec init idealSchedule = some final ∧
    (final.out <+: documented ∧ handled final ≤ sleepFor / tickPeriod ∧
      (final.main = MainPc.exited →
        final.out = documented ∧ handled final = sleepFor / tickPeriod ∧ final.fired = 3)) :=
  ⟨rfl, ticker_ticks_three_times.1 idealSchedule final rfl⟩

end Tickers

/-! ## The wait group -/

namespace WaitGroups

theorem active_append (ws : List Worker) (w : Worker) :
    active (ws ++ [w]) = active ws + (if w.pc ≠ WorkerPc.exited then 1 else 0) := by
  unfold active
  rw [List.filter_append, List.length_append]
  by_cases h : w.pc = WorkerPc.exited <;> simp [List.filter, h]

theorem active_cons (a : Worker) (ws : List Worker) :
    active (a :: ws) = (if a.pc ≠ WorkerPc.exited then 1 else 0) + active ws := by
  unfold active
  by_cases h : a.pc = WorkerPc.exited <;> simp [List.filter_cons, h, Nat.add_comm]

theorem active_set {ws : List Worker} {k : Nat} {w : Worker} (w1 : Worker) :
    ws.get? k = some w →
    active (ws.set k w1) + (if w.pc ≠ WorkerPc.exited then 1 else 0)
      = active ws + (if w1.pc ≠ WorkerPc.exited then 1 else 0) := by
  induction ws generalizing k with
  | nil => intro h; simp at h
  | cons a rest ih =>
    intro h
    cases k with
    | zero =>
      simp only [List.get?_cons_zero, Option.some.injEq] at h
      subst h
      rw [List.set_cons_zero, active_cons, active_cons]
      omega
    | succ k =>
      simp only [List.get?_cons_succ] at h
      have := ih h
      rw [List.set_cons_succ, active_cons, active_cons]
      omega

theorem map_id_set {ws : List Worker} {k : Nat} {w : Worker} (pc : WorkerPc) :
    ws.get? k = some w → (ws.set k { w with pc := pc }).map Worker.id = ws.map Worker.id := by
  induction ws generalizing k with
  | nil => intro h; simp at h
  | cons a rest ih =>
    intro h
    cases k with
    | zero =>
      simp only [List.get?_cons_zero, Option.some.injEq] at h
      subst h
      simp
    | succ k =>
      simp only [List.get?_cons_succ] at h
      simp [ih h]

theorem wg_inv_init : Inv init := by
  constructor <;> simp [init, registered, active, numWorkers]

theorem inv_mainStep {s s1 : State} (hi : Inv s) (h : mainStep s = some s1) : Inv s1 := by
  obtain ⟨noPanic, count, ids, launched, atGo, bound, past, printed, ret⟩ := hi
  cases hm : s.main with
  | atAdd =>
    have hcount : s.counter = (active s.workers : Int) := by
      simpa [registered, hm] using count
    by_cases hle : s.i ≤ numWorkers
    · have hadd : wgAdd s.counter 1 = some (s.counter + 1) := by
        unfold wgAdd
        rw [if_neg (by omega)]
      simp only [mainStep, hm, hle, if_true, hadd, Option.some.injEq] at h
      subst h
      refine ⟨noPanic, ?_, ids, launched, fun _ => hle, bound, ?_, printed, ?_⟩
      · simp [registered, hcount]
      · intro hp; simp at hp
      · intro hp; simp at hp
    · simp only [mainStep, hm, hle, if_false, Option.some.injEq] at h
      subst h
      refine ⟨noPanic, ?_, ids, launched, ?_, bound, ?_, printed, ?_⟩
      · simp [registered, hcount]
      · intro hp; simp at hp
      · intro _; dsimp only; omega
      · intro hp; simp at hp
  | atGo =>
    have hcount : s.counter = (active s.workers : Int) + 1 := by
      simpa [registered, hm] using count
    have hgo := atGo hm
    simp only [mainStep, hm, Option.some.injEq] at h
    subst h
    refine ⟨noPanic, ?_, ?_, ?_, ?_, ?_, ?_, ?_, ?_⟩
    · simp [registered, active_append, hcount]
    · dsimp only
      rw [List.map_append, ids, List.length_append, List.length_singleton, List.range'_concat]
      simp only [List.map_cons, List.map_nil, Nat.one_mul]
      rw [← launched, Nat.add_comm 1]
    · dsimp only
      rw [List.length_append, List.length_singleton]
      omega
    · intro hp; simp at hp
    · dsimp only; omega
    · intro hp; simp at hp
    · intro w hw hpc
      simp only [List.mem_append, List.mem_singleton] at hw
      rcases hw with hw | hw
      · exact printed w hw hpc
      · subst hw
        simp at hpc
    · intro hp; simp at hp
  | atWait =>
    have hcount : s.counter = (active s.workers : Int) := by
      simpa [registered, hm] using count
    have hpast := past (Or.inl hm)
    by_cases hz : s.counter = 0
    · simp only [mainStep, hm, hz, if_true, Option.some.injEq] at h
      subst h
      refine ⟨noPanic, ?_, ids, launched, ?_, bound, fun _ => hpast, printed, fun _ => rfl⟩
      · simp [registered, ← hcount, hz]
      · intro hp; simp at hp
    · simp [mainStep, hm, hz] at h
  | returned => simp [mainStep, hm] at h

theorem get_mem {ws : List Worker} {k : Nat} {w : Worker} (h : ws.get? k = some w) : w ∈ ws := by
  induction ws generalizing k with
  | nil => simp at h
  | cons a rest ih =>
    cases k with
    | zero =>
      simp only [List.get?_cons_zero, Option.some.injEq] at h
      subst h
      exact List.mem_cons_self _ _
    | succ k =>
      simp only [List.get?_cons_succ] at h
      exact List.mem_cons_of_mem _ (ih h)

theorem inv_workerStep {s s1 : State} {k : Nat} (hi : Inv s) (h : workerStep s k = some s1) :
    Inv s1 := by
  obtain ⟨noPanic, count, ids, launched, atGo, bound, past, printed, ret⟩ := hi
  cases hg : s.workers.get? k with
  | none => simp only [workerStep, hg] at h; cases h
  | some w =>
    have hmem := get_mem hg
    cases hpc : w.pc with
    | starting =>
      simp only [workerStep, hg, hpc, Option.some.injEq] at h
      subst h
      have hact := active_set ({ w with pc := WorkerPc.sleeping }) hg
      simp only [hpc] at hact
      refine ⟨noPanic, ?_, ?_, ?_, atGo, bound, past, ?_, ret⟩
      · simp only [registered] at count ⊢
        rw [count]
        simp only [ne_eq, reduceCtorEq, not_false_eq_true, if_true] at hact
        omega
      · dsimp only
        rw [map_id_set _ hg, List.length_set]
        exact ids
      · dsimp only
        rw [List.length_set]
        exact launched
      · intro w1 hw1 hp
        rcases List.mem_or_eq_of_mem_set hw1 with hw | hw
        · exact List.mem_append_left _ (printed w1 hw hp)
        · subst hw
          simp at hp
    | sleeping =>
      simp only [workerStep, hg, hpc, Option.some.injEq] at h
      subst h
      have hact := active_set ({ w with pc := WorkerPc.finishing }) hg
      simp only [hpc] at hact
      refine ⟨noPanic, ?_, ?_, ?_, atGo, bound, past, ?_, ret⟩
      · simp only [registered] at count ⊢
        rw [count]
        simp only [ne_eq, reduceCtorEq, not_false_eq_true, if_true] at hact
        omega
      · dsimp only
        rw [map_id_set _ hg, List.length_set]
        exact ids
      · dsimp only
        rw [List.length_set]
        exact launched
      · intro w1 hw1 hp
        rcases List.mem_or_eq_of_mem_set hw1 with hw | hw
        · exact printed w1 hw hp
        · subst hw
          simp at hp
    | finishing =>
      simp only [workerStep, hg, hpc, Option.some.injEq] at h
      subst h
      have hact := active_set ({ w with pc := WorkerPc.deferred }) hg
      simp only [hpc] at hact
      refine ⟨noPanic, ?_, ?_, ?_, atGo, bound, past, ?_, ret⟩
      · simp only [registered] at count ⊢
        rw [count]
        simp only [ne_eq, reduceCtorEq, not_false_eq_true, if_true] at hact
        omega
      · dsimp only
        rw [map_id_set _ hg, List.length_set]
        exact ids
      · dsimp only
        rw [List.length_set]
        exact launched
      · intro w1 hw1 hp
        rcases List.mem_or_eq_of_mem_set hw1 with hw | hw
        · exact List.mem_append_left _ (printed w1 hw hp)
        · subst hw
          simp
    | deferred =>
      have hact := active_set ({ w with pc := WorkerPc.exited }) hg
      simp only [hpc, ne_eq, reduceCtorEq, not_false_eq_true, if_true, not_true_eq_false,
        if_false] at hact
      have hpos : 1 ≤ s.counter := by
        rw [count]
        simp only [registered]
        omega
      have hdone : wgDone s.counter = some (s.counter - 1) := by
        unfold wgDone wgAdd
        rw [if_neg (by omega)]
        rfl
      simp only [workerStep, hg, hpc, hdone, Option.some.injEq] at h
      subst h
      refine ⟨noPanic, ?_, ?_, ?_, atGo, bound, past, ?_, ?_⟩
      · simp only [registered] at count ⊢
        rw [count]
        split <;> omega
      · dsimp only
        rw [map_id_set _ hg, List.length_set]
        exact ids
      · dsimp only
        rw [List.length_set]
        exact launched
      · intro w1 hw1 hp
        rcases List.mem_or_eq_of_mem_set hw1 with hw | hw
        · exact printed w1 hw hp
        · subst hw
          exact printed w hmem (Or.inl hpc)
      · intro hm
        have := ret hm
        omega
    | exited => simp only [workerStep, hg, hpc] at h; cases h

theorem wg_inv_step {s s1 : State} {e : Event} (hi : Inv s) (h : step s e = some s1) : Inv s1 := by
  cases e with
  | mainStep =>
    simp only [step, hi.noPanic] at h
    exact inv_mainStep hi h
  | workerStep k =>
    simp only [step, hi.noPanic] at h
    exact inv_workerStep hi h

theorem wg_inv_exec {es : List Event} : ∀ {s s1 : State}, Inv s → exec s es = some s1 → Inv s1 := by
  induction es with
  | nil =>
    intro s s1 hi h
    simp only [exec, Option.some.injEq] at h
    exact h ▸ hi
  | cons e es ih =>
    intro s s1 hi h
    cases hs : step s e with
    | none => simp [exec, hs] at h
    | some s2 =>
      simp only [exec, hs, Option.some_bind] at h
      exact ih (wg_inv_step hi hs) h

theorem active_zero {ws : List Worker} (h : active ws = 0) :
    ∀ w ∈ ws, w.pc = WorkerPc.exited := by
  induction ws with
  | nil => intro w hw; cases hw
  | cons a rest ih =>
    rw [active_cons] at h
    intro w hw
    rcases List.mem_cons.mp hw with hw | hw
    · subst hw
      by_contra hne
      rw [if_pos hne] at h
      omega
    · exact ih (by omega) w hw

theorem active_all {ws : List Worker} (h : ∀ w ∈ ws, w.pc ≠ WorkerPc.exited) :
    active ws = ws.length := by
  induction ws with
  | nil => rfl
  | cons a rest ih =>
    rw [active_cons, if_pos (h a (List.mem_cons_self _ _)),
      ih (fun w hw => h w (List.mem_cons_of_mem _ hw)), List.length_cons]
    omega

/-- C10, refuted as stated: after the first `wg.Add(1)` and before the first
`go` statement the counter is 1 although no worker has been launched. -/
theorem wait_group_counter_leads_launch :
    exec init [Event.mainStep] = some afterAdd ∧
    afterAdd.counter = 1 ∧ afterAdd.workers = [] ∧ launchedNotDone afterAdd = 0 ∧
    afterAdd.counter ≠ (launchedNotDone afterAdd : Int) := by
  refine ⟨rfl, rfl, rfl, rfl, by decide⟩

/-- C10, amended. Completion barrier. In every interleaving of `main` and the
worker goroutines the program does not panic, the WaitGroup counter is never
negative and equals the number of launched workers that have not yet called
Done, plus one while `main` stands between `wg.Add(1)` and the `go` statement;
so it equals that number whenever `main` is not at a `go` statement. It is 5
after the launch loop if no worker has finished; `main` passes `wg.Wait()`
exactly when the counter is 0; and once Wait has returned the counter is 0 and
the workers are exactly those with ids 1..5, each of which has printed its
`done` line and called Done. -/
theorem wait_group_barrier (es : List Event) (s : State) (h : exec init es = some s) :
    s.panicked = false ∧ 0 ≤ s.counter ∧
    s.counter = ((launchedNotDone s + (if s.main = MainPc.atGo then 1 else 0) : Nat) : Int) ∧
    (s.main ≠ MainPc.atGo → s.counter = (launchedNotDone s : Int)) ∧
    (s.main = MainPc.atWait → (∀ w ∈ s.workers, w.pc ≠ WorkerPc.exited) → s.counter = 5) ∧
    (s.main = MainPc.atWait → ((step s Event.mainStep).isSome ↔ s.counter = 0)) ∧
    (s.main = MainPc.returned →
      s.counter = 0 ∧ s.workers.map Worker.id = [1, 2, 3, 4, 5] ∧
      (∀ w ∈ s.workers, w.pc = WorkerPc.exited) ∧
      ∀ k ∈ [1, 2, 3, 4, 5], Output.workerDone k ∈ s.out) := by
  have hi := wg_inv_exec wg_inv_init h
  have hcount := hi.count
  refine ⟨hi.noPanic, by omega, hcount, ?_, ?_, ?_, ?_⟩
  · intro hm
    rw [hcount]
    simp [registered, launchedNotDone, hm]
  · intro hm hall
    have hpast := hi.past (Or.inl hm)
    have hl := hi.launched
    rw [hcount]
    simp only [registered, hm, active_all hall, numWorkers] at *
    simp only [reduceCtorEq, if_false, Nat.add_zero]
    have : s.workers.length = 5 := by omega
    rw [this]
    rfl
  · intro hm
    simp only [step, hi.noPanic, mainStep, hm]
    by_cases hz : s.counter = 0 <;> simp [hz]
  · intro hm
    have hz := hi.ret hm
    have hpast := hi.past (Or.inr hm)
    have hl := hi.launched
    have hlen : s.workers.length = 5 := by
      simp only [numWorkers] at hpast
      omega
    have hids : s.workers.map Worker.id = [1, 2, 3, 4, 5] := by
      rw [hi.ids, hlen]
      rfl
    have hact : active s.workers = 0 := by
      rw [hz] at hcount
      simp only [registered, hm] at hcount
      simp only [reduceCtorEq, if_false, Nat.add_zero] at hcount
      exact_mod_cast hcount.symm
    have hex := active_zero hact
    refine ⟨hz, hids, hex, ?_⟩
    intro k hk
    rw [← hids] at hk
    obtain ⟨w, hw, rfl⟩ := List.mem_map.mp hk
    exact hi.printed w hw (Or.inr (hex w hw))

theorem wait_group_barrier_witness :
    exec init fullSchedule = some final ∧
    (final.panicked = false ∧ 0 ≤ final.counter ∧
      final.counter =
        ((launchedNotDone final + (if final.main = MainPc.atGo then 1 else 0) : Nat) : Int) ∧
      (final.main ≠ MainPc.atGo → final.counter = (launchedNotDone final : Int)) ∧
      (final.main = MainPc.atWait → (∀ w ∈ final.workers, w.pc ≠ WorkerPc.exited) →
        final.counter = 5) ∧
      (final.main = MainPc.atWait → ((step final Event.mainStep).isSome ↔ final.counter = 0)) ∧
      (final.main = MainPc.returned →
        final.counter = 0 ∧ final.workers.map Worker.id = [1, 2, 3, 4, 5] ∧
        (∀ w ∈ final.workers, w.pc = WorkerPc.exited) ∧
        ∀ k ∈ [1, 2, 3, 4, 5], Output.workerDone k ∈ final.out)) :=
  ⟨rfl, wait_group_barrier fullSchedule final rfl⟩

end WaitGroups
